import Mathlib

/-
Verification of the agent-softcatala backend's tool-invocation orchestration
core, shallowly embedded in Lean 4.

The embedding follows the Python sources:
  backend/models/providers/hybrid_function_caller.py  (fallback tool calling)
  backend/agent.py                                    (native streaming loop)
  backend/main.py                                     (HTTP SSE wrapper)
  backend/tools/base.py                               (parameter validation)
  backend/tools/langchain_tools.py                    (LangChain tool wrapper)
  backend/langchain_agent.py                          (agent configuration)

Strings are modelled as `List Char` internally (with `String` wrappers),
Python floats as exact rationals parsed from the decimal literal grammar
(sign, digits, dot, optional exponent; no underscores / inf / nan), regular
expressions by equivalent explicit scanning functions, and I/O (model calls,
tool executions, streamed provider responses) by explicit oracles passed as
arguments. Timestamps and logging are not modelled.
-/

/- Basic character classes, matching Python's `str.strip`, `str.isdigit`
   (restricted to ASCII) and the regex class `\w` (restricted to ASCII). -/

def pyIsSpace (c : Char) : Bool :=
  c == ' ' || c == '\t' || c == '\n' || c == '\r' || c == '\x0b' || c == '\x0c' ||
  c == '\x1c' || c == '\x1d' || c == '\x1e' || c == '\x1f'

def isWordChar (c : Char) : Bool :=
  c.isAlphanum || c == '_'

def pyIsQuote (c : Char) : Bool :=
  c == '\x22' || c == '\x27'

/-- Python `s.strip()`: remove leading and trailing whitespace. -/
def pyStrip (s : List Char) : List Char :=
  ((s.dropWhile pyIsSpace).reverse.dropWhile pyIsSpace).reverse

/-- Python `s.strip('"\'')` applied after `strip()`: remove all leading and
trailing single/double quote characters. -/
def stripQuotes (s : List Char) : List Char :=
  ((s.dropWhile pyIsQuote).reverse.dropWhile pyIsQuote).reverse

/-- Decimal value of a digit string, as used by Python `int(value)` on an
all-digit string. -/
def decimalNat (s : List Char) : Nat :=
  s.foldl (fun n c => 10 * n + (c.toNat - 48)) 0

/- Pattern scanning: `startsWith pat s` checks that `pat` is a prefix of `s`;
   `splitFirst pat s` splits `s` around the leftmost occurrence of `pat`,
   modelling `re.search` for a literal pattern. -/

def startsWith : List Char → List Char → Bool
  | [], _ => true
  | _ :: _, [] => false
  | p :: ps, x :: xs => p == x && startsWith ps xs

def splitFirst (pat : List Char) : List Char → Option (List Char × List Char)
  | [] => if startsWith pat [] then some ([], []) else none
  | c :: rest =>
    if startsWith pat (c :: rest) then some ([], (c :: rest).drop pat.length)
    else
      match splitFirst pat rest with
      | some (pre, post) => some (c :: pre, post)
      | none => none

/-- Python `sep in s` / `s.split(sep, 1)` for a one-character separator:
split at the first occurrence, `none` when the separator is absent. -/
def splitFirstChar (sep : Char) : List Char → Option (List Char × List Char)
  | [] => none
  | c :: rest =>
    if c == sep then some ([], rest)
    else
      match splitFirstChar sep rest with
      | some (a, b) => some (c :: a, b)
      | none => none

/-- Python `s.split(sep)` for a one-character separator: splits on every
occurrence and keeps empty pieces (`"".split(',') = [""]`). -/
def splitChar (sep : Char) : List Char → List (List Char)
  | [] => [[]]
  | c :: rest =>
    if c == sep then [] :: splitChar sep rest
    else
      match splitChar sep rest with
      | [] => [[c]]
      | piece :: more => (c :: piece) :: more

/-- Scan for the first occurrence of a character, returning the prefix before
it, modelling the lazy regex group `(.*?)` followed by that character. -/
def upToChar (t : Char) : List Char → Option (List Char)
  | [] => none
  | c :: rest =>
    if c == t then some []
    else
      match upToChar t rest with
      | some pre => some (c :: pre)
      | none => none

example : pyStrip " ab ".toList = "ab".toList := by decide
example : stripQuotes "\x27\x22ab\x22\x27".toList = "ab".toList := by decide
example : splitFirst "cd".toList "abcdef".toList = some ("ab".toList, "ef".toList) := by decide
example : splitChar ',' "a,b,,c".toList = ["a".toList, "b".toList, [], "c".toList] := by decide
example : splitFirstChar '=' "k=v=w".toList = some ("k".toList, "v=w".toList) := by decide
example : upToChar ')' "ab)cd".toList = some "ab".toList := by decide

/- Values produced by the fallback parser's argument coercion
   (hybrid_function_caller.py lines 61-71): Python int, float or str.
   Floats are modelled as exact rationals. -/

inductive PyVal where
  | int (n : Int)
  | float (q : Rat)
  | str (s : String)
deriving DecidableEq, Repr

/-- Remainder check of a Python digit part after its first digit: digits,
with single underscores allowed only between digits. -/
def validDigitRunAux : List Char → Bool
  | [] => true
  | ['_'] => false
  | '_' :: d :: rest => d.isDigit && validDigitRunAux rest
  | c :: rest => c.isDigit && validDigitRunAux rest

/-- Python `digitpart ::= digit (["_"] digit)*`: nonempty, starts and ends
with a digit, underscores single and only between digits. -/
def validDigitRun : List Char → Bool
  | [] => false
  | c :: rest => c.isDigit && validDigitRunAux rest

def stripUnderscores (s : List Char) : List Char := s.filter fun c => c != '_'

def isDigitOrUnderscore (c : Char) : Bool := c.isDigit || c == '_'

/-- Exponent part of a Python float literal: optional sign then a digit
part (underscore separators allowed, as in `float("1e5_6")`). -/
def parseExp (s : List Char) : Option Int :=
  let sgn : Int := match s with
    | '-' :: _ => -1
    | _ => 1
  let s1 : List Char := match s with
    | '+' :: r => r
    | '-' :: r => r
    | _ => s
  if validDigitRun s1 then some (sgn * (decimalNat (stripUnderscores s1) : Int)) else none

/-- Exact rational value of a decimal float literal with sign `neg`, integer
digits `ip`, fractional digits `fp` and decimal exponent `e`, built with
integer arithmetic only so that it evaluates inside the kernel. -/
def pyFloatVal (neg : Bool) (ip fp : List Char) (e : Int) : Rat :=
  let mag : Nat := decimalNat ip * 10 ^ fp.length + decimalNat fp
  let sgn : Int := if neg then -1 else 1
  if 0 ≤ e then mkRat (sgn * ((mag * 10 ^ e.toNat : Nat) : Int)) (10 ^ fp.length)
  else mkRat (sgn * (mag : Int)) (10 ^ fp.length * 10 ^ (-e).toNat)

/-- Model of Python `float(value)` on the decimal literal grammar
`ws [+-]? (digitpart [. digitpart?] | . digitpart) ([eE] [+-]? digitpart)? ws`
with `digitpart = digit (["_"] digit)*`: surrounding whitespace is stripped
(`float(" 1.5") = 1.5`) and underscore separators between digits are
accepted (`float("1_0.5") = 10.5`), returning the exact rational value;
`none` models `ValueError`. The `inf` / `infinity` / `nan` forms carry no
`.` and are unreachable from `coerceValue`, and digits are ASCII — Python
additionally maps Unicode decimal digits, which theorems quantifying over
values exclude; Python's rounding to binary floating point is modelled by
the exact decimal value. -/
def pyParseFloat (v : List Char) : Option Rat :=
  let s := pyStrip v
  let neg : Bool := match s with
    | '-' :: _ => true
    | _ => false
  let v1 : List Char := match s with
    | '+' :: r => r
    | '-' :: r => r
    | _ => s
  let run1 := v1.takeWhile isDigitOrUnderscore
  let r1 := v1.dropWhile isDigitOrUnderscore
  if !run1.isEmpty && !validDigitRun run1 then none
  else
    let ip := stripUnderscores run1
    match r1 with
    | [] => if ip.isEmpty then none else some (pyFloatVal neg ip [] 0)
    | '.' :: r2 =>
      let run2 := r2.takeWhile isDigitOrUnderscore
      let r3 := r2.dropWhile isDigitOrUnderscore
      if !run2.isEmpty && !validDigitRun run2 then none
      else
        let fp := stripUnderscores run2
        if ip.isEmpty && fp.isEmpty then none
        else
          match r3 with
          | [] => some (pyFloatVal neg ip fp 0)
          | 'e' :: r4 => (parseExp r4).map fun e => pyFloatVal neg ip fp e
          | 'E' :: r4 => (parseExp r4).map fun e => pyFloatVal neg ip fp e
          | _ => none
    | 'e' :: r4 =>
      if ip.isEmpty then none else (parseExp r4).map fun e => pyFloatVal neg ip [] e
    | 'E' :: r4 =>
      if ip.isEmpty then none else (parseExp r4).map fun e => pyFloatVal neg ip [] e
    | _ => none

/-- Type coercion of one argument value (hybrid_function_caller.py lines
61-71): try `float` when the value contains a dot (a `ValueError` falls back
to the string), else `int` when all digits, else keep the string. The digit
test models `value.isdigit()` + `int(value)` on ASCII digits; Python
additionally accepts Unicode decimal digits (`int("٣") = 3`), which are
outside this model — theorems quantifying over values restrict them to
ASCII. -/
def coerceValue (v : List Char) : PyVal :=
  if v.contains '.' then
    match pyParseFloat v with
    | some q => PyVal.float q
    | none => PyVal.str (String.mk v)
  else if !v.isEmpty && v.all Char.isDigit then PyVal.int (decimalNat v : Int)
  else PyVal.str (String.mk v)

example : coerceValue "3".toList = PyVal.int 3 := by decide
example : coerceValue "3.5".toList = PyVal.float (mkRat 7 2) := by decide
example : coerceValue "foo".toList = PyVal.str "foo" := by decide
example : coerceValue "a.b".toList = PyVal.str "a.b" := by decide
example : coerceValue "-2.5e2".toList = PyVal.float (mkRat (-250) 1) := by decide
example : coerceValue "1_0.5".toList = PyVal.float (mkRat 21 2) := by decide
example : coerceValue " 1.5".toList = PyVal.float (mkRat 3 2) := by decide
example : coerceValue "1_.5".toList = PyVal.str "1_.5" := by decide
example : coerceValue "1__0.5".toList = PyVal.str "1__0.5" := by decide

/- Model of HybridFunctionCaller._extract_tool_call_from_text
   (hybrid_function_caller.py lines 36-79). The regexes are modelled by
   explicit scans with the same semantics:
   - r"```tool_code\s*(.*?)\s*```" (DOTALL): text between the first
     "```tool_code" marker and the next "```", stripped;
   - r"(\w+)\((.*?)\)" (DOTALL): the first word-character run immediately
     followed by '(', paired with the characters up to the next ')'. -/

def tcMarker : List Char := "```tool_code".toList

def fenceMarker : List Char := "```".toList

structure ToolCallParse where
  name : String
  arguments : List (String × PyVal)
deriving DecidableEq, Repr

/-- Leftmost match of the regex `(\w+)\((.*?)\)`: scan for the first word
run immediately followed by `(`, then take the shortest argument span
closed by `)`. `none` models a failed `re.search`. -/
def extractFuncCall : List Char → Option (List Char × List Char)
  | [] => none
  | c :: rest =>
    if isWordChar c then
      let run := (c :: rest).takeWhile isWordChar
      match (c :: rest).dropWhile isWordChar with
      | '(' :: r2 =>
        match upToChar ')' r2 with
        | some args => some (run, args)
        | none => extractFuncCall rest
      | _ => extractFuncCall rest
    else extractFuncCall rest

/-- Python dict assignment `args[key] = v` on an insertion-ordered
association list: update in place when the key exists, else append. -/
def dictInsert (m : List (String × PyVal)) (k : String) (v : PyVal) : List (String × PyVal) :=
  match m with
  | [] => [(k, v)]
  | (k', v') :: rest => if k' = k then (k', v) :: rest else (k', v') :: dictInsert rest k v

/-- Processing of one comma-separated piece (hybrid_function_caller.py lines
56-71): pieces without `=` are skipped; otherwise split at the first `=`,
strip the key, strip whitespace then quotes from the value, coerce. -/
def processPair (args : List (String × PyVal)) (pair : List Char) : List (String × PyVal) :=
  match splitFirstChar '=' pair with
  | none => args
  | some (k, v) =>
    dictInsert args (String.mk (pyStrip k)) (coerceValue (stripQuotes (pyStrip v)))

/-- Argument parsing (hybrid_function_caller.py lines 51-71): empty (after
strip) argument text gives an empty map, otherwise split on commas and
process each `key=value` piece in order. -/
def parseArgsCore (argsStr : List Char) : List (String × PyVal) :=
  if pyStrip argsStr = [] then []
  else (splitChar ',' argsStr).foldl processPair []

/-- Model of `_extract_tool_call_from_text`: locate the first `tool_code`
fenced block, match a single `name(...)` call inside it, and parse the
arguments. Any failure returns `none` (the Python code logs and returns
`None`). -/
def extractCore (text : List Char) : Option ToolCallParse :=
  match splitFirst tcMarker text with
  | none => none
  | some (_, rest) =>
    match splitFirst fenceMarker rest with
    | none => none
    | some (between, _) =>
      match extractFuncCall (pyStrip between) with
      | none => none
      | some (fname, argsStr) => some ⟨String.mk fname, parseArgsCore argsStr⟩

def extract_tool_call_from_text (text : String) : Option ToolCallParse :=
  extractCore text.toList

example :
    extract_tool_call_from_text "```tool_code\nspell_check(text=\"Hola mon\")\n```" =
      some ⟨"spell_check", [("text", PyVal.str "Hola mon")]⟩ := by decide

example :
    extract_tool_call_from_text "hi ```tool_code\nf(n=3, x=3.5, s=foo)\n``` bye" =
      some ⟨"f", [("n", PyVal.int 3), ("x", PyVal.float (mkRat 7 2)), ("s", PyVal.str "foo")]⟩ := by
  decide

example : extract_tool_call_from_text "no block here" = none := by decide
example : extract_tool_call_from_text "```tool_code\nnot a call\n```" = none := by decide
example : extract_tool_call_from_text "```tool_code\nf()\n```" = some ⟨"f", []⟩ := by decide

/- LangChain message and tool shapes, as consumed by the fallback prompt
   builder (hybrid_function_caller.py lines 81-175). A tool carries the
   pieces of `tool.args_schema.schema()` the builder reads: the `properties`
   map rendered in insertion order. -/

inductive LCMessage where
  | system (content : String)
  | human (content : String)
  | ai (content : String)
  | tool (content : String)
deriving DecidableEq, Repr

def LCMessage.content : LCMessage → String
  | .system c => c
  | .human c => c
  | .ai c => c
  | .tool c => c

structure LCParamInfo where
  type : Option String
  description : Option String
deriving DecidableEq, Repr

structure LCTool where
  name : String
  description : String
  args_schema : Option (List (String × LCParamInfo))
deriving DecidableEq, Repr

/-- JSON-schema-to-Python type mapping (hybrid_function_caller.py lines
141-150), with default `str` both for a missing `type` key and for an
unmapped type name. -/
def pythonType (t : Option String) : String :=
  match t.getD "str" with
  | "string" => "str"
  | "integer" => "int"
  | "number" => "float"
  | "boolean" => "bool"
  | "array" => "list"
  | "object" => "dict"
  | _ => "str"

/-- Rendering of one tool as a pseudo Python signature
(hybrid_function_caller.py lines 128-164). -/
def renderToolDef (tool : LCTool) : String :=
  match tool.args_schema with
  | some props =>
    "```python\ndef " ++ tool.name ++ "(" ++
      String.intercalate ", " (props.map fun pi => pi.1 ++ ": " ++ pythonType pi.2.type) ++
      "):\n    \x22\x22\x22" ++ tool.description ++ "\n" ++
      String.join (props.map fun pi =>
        match pi.2.description with
        | some d => if d ≠ "" then "    " ++ pi.1 ++ ": " ++ d ++ "\n" else ""
        | none => "") ++
      "    \x22\x22\x22\n```\n\n"
  | none =>
    "```python\ndef " ++ tool.name ++ "():\n    \x22\x22\x22" ++ tool.description ++
      "\x22\x22\x22\n```\n\n"

def stripStr (s : String) : String := String.mk (pyStrip s.toList)

/-- Model of `_build_prompt_with_tools` (hybrid_function_caller.py lines
109-175): system content first, then the base instructions, the rendered
tool definitions, and the non-system conversation with role labels.
`self.tools` is passed explicitly. -/
def build_prompt_with_tools (tools : List LCTool) (base_prompt : String)
    (messages : List LCMessage) (user_label assistant_label : String) : String :=
  let system_content := String.join (messages.filterMap fun m =>
    match m with
    | .system c => some (c ++ "\n\n")
    | _ => none)
  let conversation_messages := messages.filter fun m =>
    match m with
    | .system _ => false
    | _ => true
  let prompt0 :=
    if system_content ≠ "" then stripStr system_content ++ "\n\n" ++ base_prompt
    else base_prompt
  let prompt1 := prompt0 ++ String.join (tools.map renderToolDef)
  let conversation := String.join (conversation_messages.map fun m =>
    match m with
    | .human c => user_label ++ ": " ++ c ++ "\n"
    | .ai c => assistant_label ++ ": " ++ c ++ "\n"
    | _ => "")
  prompt1 ++ conversation

/-- English base instructions (hybrid_function_caller.py lines 93-97),
verbatim. -/
def englishBasePrompt : String :=
  "At each turn, if you decide to invoke any of the function(s), it should be wrapped with ```tool_code```. The python methods described below are imported and available, you can only use defined methods. The generated code should be readable and efficient. The response to a method will be wrapped in ```tool_output``` use it to call more tools or generate a helpful, friendly response. When using a ```tool_call``` think step by step why and how it should be used.\n\nThe following Python methods are available:\n\n"

/-- Catalan base instructions (hybrid_function_caller.py lines 102-106),
verbatim. -/
def catalanBasePrompt : String :=
  "En cada torn, si decideixes invocar qualsevol de les funcions, ha d\x27estar embolcallada amb ```tool_code```. Els mètodes python descrits a continuació estan importats i disponibles, només pots utilitzar mètodes definits. El codi generat ha de ser llegible i eficient. La resposta a un mètode s\x27embolcallarà amb ```tool_output``` utilitzeu-lo per cridar més eines o generar una resposta útil i amigable. Quan utilitzis un ```tool_call``` pensa pas a pas per què i com s\x27ha d\x27utilitzar.\n\nEls següents mètodes Python estan disponibles:\n\n"

/-- State a `HybridFunctionCaller` instance carries (constructor,
hybrid_function_caller.py lines 18-31); `provider` and `model` are opaque
handles that the prompt construction never reads. -/
structure HybridState where
  provider : String
  model : String
  tools : List LCTool
  use_catalan : Bool
deriving DecidableEq, Repr

/-- Model of `_create_fallback_prompt` / `_create_english_fallback_prompt` /
`_create_catalan_fallback_prompt` (hybrid_function_caller.py lines 81-107). -/
def create_fallback_prompt (s : HybridState) (messages : List LCMessage) : String :=
  if s.tools.isEmpty then
    match messages.getLast? with
    | some m => m.content
    | none => ""
  else if s.use_catalan then
    build_prompt_with_tools s.tools catalanBasePrompt messages "Usuari" "Assistent"
  else
    build_prompt_with_tools s.tools englishBasePrompt messages "User" "Assistant"

/- Model of HybridFunctionCaller._call_with_fallback_tools
   (hybrid_function_caller.py lines 253-292). The model is consulted through
   an oracle: `responses` holds the successive returns of `model.ainvoke`
   (index 0 the first call, index 1 the continuation), and `execTool` the
   behaviour of `tool.ainvoke` — `Except.ok` carries the stringified result
   interpolated into the `tool_output` block, `Except.error` a raised
   exception's text. -/

structure FallbackOracle where
  responses : List LCMessage
  execTool : String → List (String × PyVal) → Except String String

def modelResponseAt (o : FallbackOracle) (n : Nat) : LCMessage :=
  o.responses.getD n (LCMessage.ai "")

/-- Outcome of one `_call_with_fallback_tools` run: the returned message,
how many `model.ainvoke` calls were made, and the prompt content sent on
each of those calls. -/
structure FallbackRun where
  result : LCMessage
  modelCalls : Nat
  prompts : List String
deriving DecidableEq, Repr

def toolNamesOf (tools : List LCTool) : List String := tools.map LCTool.name

/-- Model of `_call_with_fallback_tools`: build the fallback prompt, call
the model once; a parsed call to a registered tool is executed and followed
by exactly one continuation call on the prompt extended with the model text
and a `tool_output` block; a failing tool or an unknown tool name yields a
synthetic `AIMessage` without further model calls; no parsed call returns
the first response as-is. -/
def call_with_fallback_tools (s : HybridState) (o : FallbackOracle)
    (messages : List LCMessage) : FallbackRun :=
  let prompt := create_fallback_prompt s messages
  match modelResponseAt o 0 with
  | LCMessage.ai content =>
    (match extract_tool_call_from_text content with
     | none => ⟨LCMessage.ai content, 1, [prompt]⟩
     | some tc =>
       if (toolNamesOf s.tools).contains tc.name then
         match o.execTool tc.name tc.arguments with
         | Except.error e =>
           ⟨LCMessage.ai ("Error executing tool " ++ tc.name ++ ": " ++ e), 1, [prompt]⟩
         | Except.ok result =>
           let tool_output := "```tool_output\n" ++ result ++ "\n```"
           let final_prompt := prompt ++ "\n" ++ content ++ "\n" ++ tool_output
           ⟨modelResponseAt o 1, 2, [prompt, final_prompt]⟩
       else ⟨LCMessage.ai ("Tool " ++ tc.name ++ " is not available."), 1, [prompt]⟩)
  | other => ⟨other, 1, [prompt]⟩

/- Model of Agent.chat_stream (agent.py lines 76-235) and of the SSE wrapper
   `generate` (main.py lines 164-175). Streamed provider responses are given
   as already-parsed chunk lists; a transport failure (unreachable provider,
   bad status) is an `Except.error`. Tool-call arguments are modelled as an
   opaque assoc list, tool results as their stringified form. -/

abbrev NArgs := List (String × String)

structure OllamaFunction where
  name : String
  arguments : NArgs
deriving DecidableEq, Repr

/-- One entry of `chunk["message"]["tool_calls"]`; `function = none` models
an entry without a `"function"` key (skipped by the loop). -/
structure OllamaToolCall where
  function : Option OllamaFunction
deriving DecidableEq, Repr

/-- The `"message"` object of a streamed chunk: `none` fields model absent
keys. -/
structure OllamaMessage where
  content : Option String
  tool_calls : Option (List OllamaToolCall)
deriving DecidableEq, Repr

structure OllamaChunk where
  message : Option OllamaMessage
  done : Bool
deriving DecidableEq, Repr

/-- Stream events yielded by `Agent.chat_stream`, minus the timestamp
field. -/
inductive SEvent where
  | content (s : String)
  | tool_call (tool : String) (parameters : NArgs)
  | tool_result (tool : String) (result : String)
  | tool_error (tool : String) (err : String)
  | error (err : String)
deriving DecidableEq, Repr

/-- One entry of the `ollama_messages` list. -/
structure OMsg where
  role : String
  content : String
  tool_calls : Option (List OllamaToolCall)
deriving DecidableEq, Repr

/-- One streamed HTTP response as the chunk loop sees it: the chunks that
were successfully received and parsed, and — when the underlying iteration
raised (connection lost mid-stream, `raise_for_status`, unreachable host) —
the exception's text, raised after the listed chunks. `streamError = none`
is a cleanly finished stream; a request that fails before yielding anything
is `⟨[], some e⟩`. -/
structure StreamedResponse where
  chunks : List OllamaChunk
  streamError : Option String
deriving DecidableEq, Repr

structure NativeEnv where
  primary : StreamedResponse
  followUps : List (Except String StreamedResponse)
  toolNames : List String
  exec : String → NArgs → Except String String

structure NState where
  events : List SEvent
  msgs : List OMsg
  followIdx : Nat
  requests : List (List OMsg)
deriving DecidableEq, Repr

/-- Follow-up response loop (agent.py lines 195-211): forward non-empty
content; the `done` check sits inside the content-key branch, so only a
chunk carrying a `content` key can end the whole generator (`true` in the
result). Chunks are already JSON-parsed. -/
def processFollow : List OllamaChunk → List SEvent × Bool
  | [] => ([], false)
  | ch :: rest =>
    match ch.message with
    | some m =>
      (match m.content with
       | some c =>
         let evs := if c ≠ "" then [SEvent.content c] else []
         if ch.done then (evs, true)
         else
           let p := processFollow rest
           (evs ++ p.1, p.2)
       | none => processFollow rest)
    | none => processFollow rest

/-- Tool-call loop body (agent.py lines 133-220). A name absent from the
registry is skipped with no event (the `if tool_name in self.tools` has no
`else`). A registered name yields `tool_call`; an executor exception yields
`tool_error`; success yields `tool_result`, appends the assistant tool-call
message and a tool-role message, and issues a follow-up request. A failure
of that request — before (`Except.error`) or during (`streamError`) its
streamed response — is caught by the same `except` as a tool failure and
yields `tool_error` after any follow-up content already forwarded, and the
loop continues. A `done` follow-up chunk ends the generator (`true`). -/
def processToolCalls (env : NativeEnv) (all : List OllamaToolCall) :
    List OllamaToolCall → NState → NState × Bool
  | [], st => (st, false)
  | tc :: rest, st =>
    match tc.function with
    | none => processToolCalls env all rest st
    | some f =>
      if f.name ∈ env.toolNames then
        let st1 : NState := { st with events := st.events ++ [SEvent.tool_call f.name f.arguments] }
        match env.exec f.name f.arguments with
        | Except.error e =>
          processToolCalls env all rest
            { st1 with events := st1.events ++ [SEvent.tool_error f.name e] }
        | Except.ok result =>
          let st2 : NState := { st1 with events := st1.events ++ [SEvent.tool_result f.name result] }
          let msgs2 := st2.msgs ++ [⟨"assistant", "", some all⟩, ⟨"tool", result, none⟩]
          match env.followUps.getD st2.followIdx (Except.ok ⟨[], none⟩) with
          | Except.error e =>
            processToolCalls env all rest
              { st2 with msgs := msgs2, followIdx := st2.followIdx + 1,
                         events := st2.events ++ [SEvent.tool_error f.name e] }
          | Except.ok fresp =>
            let st3 : NState :=
              { st2 with msgs := msgs2, followIdx := st2.followIdx + 1,
                         requests := st2.requests ++ [msgs2] }
            let p := processFollow fresp.chunks
            let st4 : NState := { st3 with events := st3.events ++ p.1 }
            if p.2 then (st4, true)
            else
              match fresp.streamError with
              | some e =>
                processToolCalls env all rest
                  { st4 with events := st4.events ++ [SEvent.tool_error f.name e] }
              | none => processToolCalls env all rest st4
      else processToolCalls env all rest st

/-- Per-chunk step of the primary loop (agent.py lines 117-221): forward
non-empty content, then run the tool-call loop when the chunk carries a
non-empty `tool_calls` list. `true` in the result means a follow-up `done`
chunk returned out of the whole generator. -/
def processChunkStep (env : NativeEnv) (ch : OllamaChunk) (st : NState) : NState × Bool :=
  match ch.message with
  | none => (st, false)
  | some m =>
    let stA : NState :=
      match m.content with
      | some c => if c ≠ "" then { st with events := st.events ++ [SEvent.content c] } else st
      | none => st
    match m.tool_calls with
    | some tcs => if tcs ≠ [] then processToolCalls env tcs tcs stA else (stA, false)
    | none => (stA, false)

/-- Primary response loop (agent.py lines 114-227): per chunk, run the step
above, then honour the top-level `done` flag (agent.py line 223). -/
def processChunks (env : NativeEnv) : List OllamaChunk → NState → NState × Bool
  | [], st => (st, false)
  | ch :: rest, st =>
    let step := processChunkStep env ch st
    if step.2 then (step.1, true)
    else if ch.done then (step.1, true)
    else processChunks env rest step.1

structure NRun where
  events : List SEvent
  msgs : List OMsg
  requests : List (List OMsg)
deriving DecidableEq, Repr

/-- Model of `Agent.chat_stream`: convert the incoming messages, make the
primary request, process its streamed chunks. The enclosing `try/except`
(agent.py line 229) wraps the whole chunk loop, so a transport failure of
the primary stream — whether before the first chunk or mid-stream — yields
one terminal `error` event after everything already yielded; it is
unreachable when the loop already returned (`done` seen). The generator
never raises: every exception path inside the body yields an event
instead. -/
def chat_stream (env : NativeEnv) (messages : List (String × String)) : NRun :=
  let omsgs := messages.map fun rc => OMsg.mk rc.1 rc.2 none
  let p := processChunks env env.primary.chunks ⟨[], omsgs, 0, []⟩
  if p.2 then ⟨p.1.events, p.1.msgs, p.1.requests⟩
  else
    match env.primary.streamError with
    | some e => ⟨p.1.events ++ [SEvent.error e], p.1.msgs, p.1.requests⟩
    | none => ⟨p.1.events, p.1.msgs, p.1.requests⟩

/-- One item of the HTTP SSE stream produced by `generate` in main.py:
either a data line carrying one event, or the final `data: [DONE]` marker. -/
inductive SSEItem where
  | data (e : SEvent)
  | doneMarker
deriving DecidableEq, Repr

/-- Model of `generate` (main.py lines 164-175): forward every chunk of
`chat_stream`, then emit the `[DONE]` marker. The `except` branch of
`generate` (an error chunk without `[DONE]`) is unreachable in this model
because `Agent.chat_stream` catches every exception internally and `json.dumps`
cannot fail on these chunk shapes. -/
def generate (env : NativeEnv) (messages : List (String × String)) : List SSEItem :=
  ((chat_stream env messages).events.map SSEItem.data) ++ [SSEItem.doneMarker]

/- Model of tools/base.py: ToolParameter, ToolDefinition and
   BaseTool.validate_parameters (lines 13-49). -/

structure ToolParameter where
  name : String
  type : String
  description : String
  required : Bool
  default : Option String
deriving DecidableEq, Repr

structure ToolDefinition where
  name : String
  description : String
  parameters : List ToolParameter
deriving DecidableEq, Repr

/-- Loop body of `validate_parameters`: scan the declared parameters in
order and raise `ValueError` (modelled as `Except.error` with the f-string
message) at the first required one whose name is not among the provided
keys. -/
def validateGo (toolName : String) (keys : List String) :
    List ToolParameter → Except String Bool
  | [] => Except.ok true
  | p :: rest =>
    if p.required && !(keys.contains p.name) then
      Except.error ("Required parameter \x27" ++ p.name ++ "\x27 missing for tool \x27" ++
        toolName ++ "\x27")
    else validateGo toolName keys rest

/-- Model of `BaseTool.validate_parameters` (tools/base.py lines 44-49). -/
def validate_parameters (defn : ToolDefinition) (params : List (String × PyVal)) :
    Except String Bool :=
  validateGo defn.name (params.map Prod.fst) defn.parameters

/-- Substring test (Python `in` on strings), reusing the scanner. -/
def containsStr (hay needle : String) : Bool :=
  (splitFirst needle.toList hay.toList).isSome

/- Model of LangChainToolWrapper._arun (tools/langchain_tools.py lines
   59-146). A tool result is either a dict (modelled as a string-valued
   assoc list) or any other value (modelled by its string form). -/

inductive PyResult where
  | dict (entries : List (String × String))
  | raw (s : String)
deriving DecidableEq, Repr

/-- Python `entries.get(k)` on a dict modelled as an assoc list. -/
def dictGet (entries : List (String × String)) (k : String) : Option String :=
  (entries.find? fun e => e.1 == k).map Prod.snd

/-- The three return shapes of `_arun`: a successful dict returned as-is, a
non-dict result wrapped as `{"result", "status": "success", "tool"}`, and
the structured error dict `{"error", "status": "error", "tool",
"parameters"}`. -/
inductive ArunResult where
  | dictResult (entries : List (String × String))
  | wrappedResult (result : String) (tool : String)
  | errorDetails (error : String) (tool : String) (parameters : List (String × PyVal))
deriving DecidableEq, Repr

/-- Model of `_arun`: validate, execute, raise on an error-status dict; the
enclosing `try/except` converts every exception (validation, executor, or
the synthesized one for an error-status dict) into the structured error
dict, which is returned, not raised. -/
def arun (toolName : String) (defn : ToolDefinition)
    (exec : List (String × PyVal) → Except String PyResult)
    (kwargs : List (String × PyVal)) : ArunResult :=
  match validate_parameters defn kwargs with
  | Except.error e => ArunResult.errorDetails e toolName kwargs
  | Except.ok _ =>
    match exec kwargs with
    | Except.error e => ArunResult.errorDetails e toolName kwargs
    | Except.ok (PyResult.dict entries) =>
      if dictGet entries "status" = some "error" then
        ArunResult.errorDetails
          ("Tool " ++ toolName ++ " failed: " ++ (dictGet entries "error").getD "Tool execution failed")
          toolName kwargs
      else ArunResult.dictResult entries
    | Except.ok (PyResult.raw r) => ArunResult.wrappedResult r toolName

/- The capped send-execute-continue loop of the native path. The loop itself
   lives in LangChain's `AgentExecutor` (third-party code, not part of this
   repository); `LangChainAgent._setup_agent` only configures it. -/

/-- Iteration cap passed to `AgentExecutor` (langchain_agent.py line 234). -/
def max_iterations : Nat := 3

inductive ProviderStep where
  | finish (content : String)
  | callTool (name : String) (args : NArgs)

structure AgentOutcome where
  toolRounds : Nat
  terminalDone : Bool
  output : String
deriving DecidableEq, Repr

/-- Modelled from the spec: the `AgentExecutor` send-execute-continue loop
(spec sections 4.2 and 4.4) is LangChain library code absent from this
repository's sources; only its configuration (`max_iterations = 3`,
langchain_agent.py lines 229-235) is in the repository. Each round consults
the provider; a structured tool call leads to another round, completion ends
the loop, and exhausting the cap ends the turn as a normal `done` with a
best-available output, never as an error. -/
def agentExecutorGo (provider : Nat → ProviderStep) (i : Nat) : Nat → AgentOutcome
  | 0 => ⟨i, true, "Agent stopped due to iteration limit."⟩
  | fuel + 1 =>
    match provider i with
    | ProviderStep.finish content => ⟨i, true, content⟩
    | ProviderStep.callTool _ _ => agentExecutorGo provider (i + 1) fuel

/-- Modelled from the spec: one turn of the capped native-path loop. -/
def agentExecutorRun (provider : Nat → ProviderStep) (cap : Nat) : AgentOutcome :=
  agentExecutorGo provider 0 cap

/- Helper lemmas. -/

theorem validateGo_eq_find (toolName : String) (keys : List String) (ps : List ToolParameter) :
    validateGo toolName keys ps =
      match ps.find? (fun p => p.required && !(keys.contains p.name)) with
      | some p => Except.error ("Required parameter \x27" ++ p.name ++ "\x27 missing for tool \x27" ++
          toolName ++ "\x27")
      | none => Except.ok true := by
  induction ps with
  | nil => rfl
  | cons p rest ih =>
    simp only [validateGo, List.find?_cons]
    cases h : (p.required && !(keys.contains p.name)) with
    | false => simpa [h] using ih
    | true => simp [h]

/-- C7: the claim says the validation error lists every missing required
parameter; in `BaseTool.validate_parameters` the `ValueError` is raised at
the first missing required parameter, so with both `alpha` and `beta`
missing the message names only `alpha`. -/
theorem spec_c7_cx_only_first_missing_listed :
    validate_parameters
        ⟨"T", "demo", [⟨"alpha", "string", "", true, none⟩, ⟨"beta", "string", "", true, none⟩]⟩
        [] =
      Except.error "Required parameter \x27alpha\x27 missing for tool \x27T\x27" ∧
    containsStr "Required parameter \x27alpha\x27 missing for tool \x27T\x27" "beta" = false :=
  ⟨rfl, rfl⟩

/-- C7 (amended): validation fails naming exactly the first declared
required parameter whose name is absent from the provided keys (not all of
them), and succeeds whenever every required parameter is present — extra,
undeclared keys never cause a failure. -/
theorem spec_c7_first_missing_only (defn : ToolDefinition) (params : List (String × PyVal)) :
    validate_parameters defn params =
      match defn.parameters.find?
          (fun p => p.required && !((params.map Prod.fst).contains p.name)) with
      | some p => Except.error ("Required parameter \x27" ++ p.name ++ "\x27 missing for tool \x27" ++
          defn.name ++ "\x27")
      | none => Except.ok true :=
  validateGo_eq_find defn.name (params.map Prod.fst) defn.parameters

/-- C10: `LangChainToolWrapper._arun` never propagates an exception: a
validation failure, an executor exception and an error-status dict all
come back as the structured error dict carrying the error text, the tool
name and the parameters; a successful non-dict result is wrapped with a
success status, and a successful dict is returned as-is. -/
theorem spec_c10_arun_never_raises (toolName : String) (defn : ToolDefinition)
    (exec : List (String × PyVal) → Except String PyResult) (kwargs : List (String × PyVal)) :
    (∀ e, validate_parameters defn kwargs = Except.error e →
      arun toolName defn exec kwargs = ArunResult.errorDetails e toolName kwargs) ∧
    (∀ b e, validate_parameters defn kwargs = Except.ok b → exec kwargs = Except.error e →
      arun toolName defn exec kwargs = ArunResult.errorDetails e toolName kwargs) ∧
    (∀ b entries, validate_parameters defn kwargs = Except.ok b →
      exec kwargs = Except.ok (PyResult.dict entries) →
      dictGet entries "status" = some "error" →
      arun toolName defn exec kwargs =
        ArunResult.errorDetails
          ("Tool " ++ toolName ++ " failed: " ++ (dictGet entries "error").getD "Tool execution failed")
          toolName kwargs) ∧
    (∀ b entries, validate_parameters defn kwargs = Except.ok b →
      exec kwargs = Except.ok (PyResult.dict entries) →
      ¬ dictGet entries "status" = some "error" →
      arun toolName defn exec kwargs = ArunResult.dictResult entries) ∧
    (∀ b r, validate_parameters defn kwargs = Except.ok b →
      exec kwargs = Except.ok (PyResult.raw r) →
      arun toolName defn exec kwargs = ArunResult.wrappedResult r toolName) := by
  refine ⟨?_, ?_, ?_, ?_, ?_⟩
  · intro e h
    simp [arun, h]
  · intro b e h1 h2
    simp [arun, h1, h2]
  · intro b entries h1 h2 h3
    simp [arun, h1, h2, h3]
  · intro b entries h1 h2 h3
    simp [arun, h1, h2, h3]
  · intro b r h1 h2
    simp [arun, h1, h2]

theorem spec_c10_witness :
    arun "demo" ⟨"demo", "", [⟨"text", "string", "", true, none⟩]⟩
        (fun _ => Except.ok (PyResult.raw "42")) [("text", PyVal.str "hi")] =
      ArunResult.wrappedResult "42" "demo" :=
  (spec_c10_arun_never_raises "demo" ⟨"demo", "", [⟨"text", "string", "", true, none⟩]⟩
      (fun _ => Except.ok (PyResult.raw "42")) [("text", PyVal.str "hi")]).2.2.2.2
    true "42" rfl rfl

/-- C9: fallback prompt construction reads only the tool list and the
language flag of the caller state besides the messages, so two caller
instances agreeing on those produce byte-identical prompt text for the same
message list (the construction consults no clock, counter or other state). -/
theorem spec_c9_prompt_deterministic (s₁ s₂ : HybridState) (messages : List LCMessage)
    (htools : s₁.tools = s₂.tools) (hlang : s₁.use_catalan = s₂.use_catalan) :
    create_fallback_prompt s₁ messages = create_fallback_prompt s₂ messages := by
  cases s₁
  cases s₂
  simp only at htools hlang
  subst htools
  subst hlang
  rfl

theorem spec_c9_witness :
    create_fallback_prompt ⟨"openrouter", "model-a", [], false⟩ [LCMessage.human "hola"] =
      create_fallback_prompt ⟨"ollama", "model-b", [], false⟩ [LCMessage.human "hola"] :=
  spec_c9_prompt_deterministic ⟨"openrouter", "model-a", [], false⟩ ⟨"ollama", "model-b", [], false⟩
    [LCMessage.human "hola"] rfl rfl

theorem agentExecutorGo_done (provider : Nat → ProviderStep) :
    ∀ fuel i, (agentExecutorGo provider i fuel).terminalDone = true ∧
      (agentExecutorGo provider i fuel).toolRounds ≤ i + fuel := by
  intro fuel
  induction fuel with
  | zero => intro i; exact ⟨rfl, Nat.le_refl _⟩
  | succ n ih =>
    intro i
    cases h : provider i with
    | finish content =>
      simp only [agentExecutorGo, h]
      exact ⟨by trivial, by omega⟩
    | callTool name args =>
      simp only [agentExecutorGo, h]
      refine ⟨(ih (i + 1)).1, ?_⟩
      have := (ih (i + 1)).2
      omega

/-- C8: the capped native-path loop (modelled from the spec; the loop body
is LangChain's `AgentExecutor`, configured with `max_iterations = 3` in
`LangChainAgent._setup_agent`) terminates for every provider behaviour —
including one that requests a tool on every round — within the configured
cap, and exhausting the cap ends the turn as a normal `done` with
best-available output, never as an error. -/
theorem spec_c8_loop_cap_done (provider : Nat → ProviderStep) :
    (agentExecutorRun provider max_iterations).terminalDone = true ∧
    (agentExecutorRun provider max_iterations).toolRounds ≤ max_iterations ∧
    agentExecutorRun (fun _ => ProviderStep.callTool "adversarial" []) max_iterations =
      ⟨3, true, "Agent stopped due to iteration limit."⟩ := by
  refine ⟨(agentExecutorGo_done provider max_iterations 0).1, ?_, rfl⟩
  have := (agentExecutorGo_done provider max_iterations 0).2
  simpa using this

/-- C4: in fallback mode, a model output whose `tool_code` block names a
registered tool leads to the tool being executed and to exactly one
continuation model call (two model calls in total, never one and never
three) whose prompt is the original prompt, the model text, and a
`tool_output` fenced block with the stringified result; the continuation's
response is returned without any further tool round-trip. -/
theorem spec_c4_one_continuation (s : HybridState) (o : FallbackOracle)
    (messages : List LCMessage) (content : String) (tc : ToolCallParse) (r : String)
    (h0 : modelResponseAt o 0 = LCMessage.ai content)
    (h1 : extract_tool_call_from_text content = some tc)
    (h2 : (toolNamesOf s.tools).contains tc.name = true)
    (h3 : o.execTool tc.name tc.arguments = Except.ok r) :
    call_with_fallback_tools s o messages =
      ⟨modelResponseAt o 1, 2,
        [create_fallback_prompt s messages,
         create_fallback_prompt s messages ++ "\n" ++ content ++ "\n" ++
           ("```tool_output\n" ++ r ++ "\n```")]⟩ := by
  have h2' : tc.name ∈ toolNamesOf s.tools := by simpa using h2
  simp [call_with_fallback_tools, h0, h1, h2', h3]

def c4Tool : LCTool :=
  ⟨"spell_check", "Check Catalan spelling", some [("text", ⟨some "string", some "Text to check"⟩)]⟩

def c4State : HybridState := ⟨"openrouter", "gemma", [c4Tool], false⟩

def c4Oracle : FallbackOracle :=
  ⟨[LCMessage.ai "```tool_code\nspell_check(text=\"Hola mon\")\n```", LCMessage.ai "Correcte!"],
   fun _ _ => Except.ok "checked"⟩

theorem spec_c4_witness :
    (call_with_fallback_tools c4State c4Oracle [LCMessage.human "Corregeix: Hola mon"]).modelCalls = 2 := by
  rw [spec_c4_one_continuation c4State c4Oracle [LCMessage.human "Corregeix: Hola mon"]
    "```tool_code\nspell_check(text=\"Hola mon\")\n```"
    ⟨"spell_check", [("text", PyVal.str "Hola mon")]⟩ "checked"
    rfl (by decide) (by decide) rfl]

/-- C6: in fallback mode, when no tool call is extracted from the model
output — either because no `tool_code` fenced block is present or because
the block's contents do not match a function call — the whole raw text is
returned as the final answer after exactly one model call: no tool runs, no
continuation call is issued, and parsing is never retried. -/
theorem spec_c6_raw_text_final_answer (s : HybridState) (o : FallbackOracle)
    (messages : List LCMessage) (content : String)
    (h0 : modelResponseAt o 0 = LCMessage.ai content)
    (h1 : extract_tool_call_from_text content = none) :
    call_with_fallback_tools s o messages =
      ⟨LCMessage.ai content, 1, [create_fallback_prompt s messages]⟩ ∧
    extract_tool_call_from_text "La resposta es text pla." = none ∧
    extract_tool_call_from_text "```tool_code\nthis is not a function call\n```" = none := by
  refine ⟨?_, by decide, by decide⟩
  simp [call_with_fallback_tools, h0, h1]

def c6Oracle : FallbackOracle :=
  ⟨[LCMessage.ai "```tool_code\nmalformed block without a call\n```"], fun _ _ => Except.ok ""⟩

theorem spec_c6_witness :
    call_with_fallback_tools c4State c6Oracle [LCMessage.human "hola"] =
      ⟨LCMessage.ai "```tool_code\nmalformed block without a call\n```", 1,
       [create_fallback_prompt c4State [LCMessage.human "hola"]]⟩ :=
  (spec_c6_raw_text_final_answer c4State c6Oracle [LCMessage.human "hola"]
    "```tool_code\nmalformed block without a call\n```" rfl (by decide)).1

/- Provenance of native-stream events: the follow-up loop only forwards
   content; the tool loop only emits `tool_call` / `tool_result` /
   `tool_error` for registered names; terminal `error` events arise only
   from the transport `except` around the primary request. -/

def isToolResultEvent : SEvent → Bool
  | SEvent.tool_result _ _ => true
  | _ => false

def isToolErrorEvent : SEvent → Bool
  | SEvent.tool_error _ _ => true
  | _ => false

def isToolMsg (m : OMsg) : Bool := m.role == "tool"

def eventFromLoop (env : NativeEnv) : SEvent → Prop
  | SEvent.tool_error n _ => n ∈ env.toolNames
  | SEvent.error _ => False
  | _ => True

theorem processFollow_content :
    ∀ chunks, ∀ e ∈ (processFollow chunks).1, ∃ c, e = SEvent.content c := by
  intro chunks
  induction chunks with
  | nil => intro e he; simp [processFollow] at he
  | cons ch rest ih =>
    intro e he
    cases hm : ch.message with
    | none =>
      simp only [processFollow, hm] at he
      exact ih e he
    | some m =>
      cases hc : m.content with
      | none =>
        simp only [processFollow, hm, hc] at he
        exact ih e he
      | some c =>
        cases hd : ch.done with
        | true =>
          simp only [processFollow, hm, hc, hd, if_true] at he
          by_cases hce : c = ""
          · simp [hce] at he
          · simp [hce] at he
            exact ⟨c, he⟩
        | false =>
          simp only [processFollow, hm, hc, hd, if_false] at he
          by_cases hce : c = ""
          · simp [hce] at he
            exact ih e he
          · simp [hce] at he
            rcases he with he | he
            · exact ⟨c, he⟩
            · exact ih e he

theorem processToolCalls_events (env : NativeEnv) (all : List OllamaToolCall) :
    ∀ tcs st e, e ∈ ((processToolCalls env all tcs st).1).events →
      e ∈ st.events ∨ eventFromLoop env e := by
  intro tcs
  induction tcs with
  | nil =>
    intro st e he
    simp only [processToolCalls] at he
    exact Or.inl he
  | cons tc rest ih =>
    intro st e he
    cases hf : tc.function with
    | none =>
      simp only [processToolCalls, hf] at he
      exact ih st e he
    | some f =>
      by_cases hn : f.name ∈ env.toolNames
      · cases hex : env.exec f.name f.arguments with
        | error err =>
          simp only [processToolCalls, hf, if_pos hn, hex] at he
          rcases ih _ e he with h | h
          · simp only [List.append_assoc, List.mem_append] at h
            rcases h with h | h
            · exact Or.inl h
            · simp at h
              rcases h with h | h
              · exact Or.inr (by rw [h]; trivial)
              · exact Or.inr (by rw [h]; simpa [eventFromLoop] using hn)
          · exact Or.inr h
        | ok result =>
          cases hfu : env.followUps.getD st.followIdx (Except.ok ⟨[], none⟩) with
          | error err =>
            simp only [processToolCalls, hf, if_pos hn, hex, hfu] at he
            rcases ih _ e he with h | h
            · simp only [List.append_assoc, List.mem_append] at h
              rcases h with h | h
              · exact Or.inl h
              · simp at h
                rcases h with h | h | h
                · exact Or.inr (by rw [h]; trivial)
                · exact Or.inr (by rw [h]; trivial)
                · exact Or.inr (by rw [h]; simpa [eventFromLoop] using hn)
            · exact Or.inr h
          | ok fresp =>
            simp only [processToolCalls, hf, if_pos hn, hex, hfu] at he
            by_cases hp : (processFollow fresp.chunks).2
            · simp only [hp, if_true] at he
              simp only [List.append_assoc, List.mem_append] at he
              rcases he with h | h
              · exact Or.inl h
              · simp at h
                rcases h with h | h | h
                · exact Or.inr (by rw [h]; trivial)
                · exact Or.inr (by rw [h]; trivial)
                · obtain ⟨c, hcc⟩ := processFollow_content fresp.chunks e h
                  exact Or.inr (by rw [hcc]; trivial)
            · simp only [hp, if_false] at he
              cases hse : fresp.streamError with
              | none =>
                simp only [hse] at he
                rcases ih _ e he with h | h
                · simp only [List.append_assoc, List.mem_append] at h
                  rcases h with h | h
                  · exact Or.inl h
                  · simp at h
                    rcases h with h | h | h
                    · exact Or.inr (by rw [h]; trivial)
                    · exact Or.inr (by rw [h]; trivial)
                    · obtain ⟨c, hcc⟩ := processFollow_content fresp.chunks e h
                      exact Or.inr (by rw [hcc]; trivial)
                · exact Or.inr h
              | some e2 =>
                simp only [hse] at he
                rcases ih _ e he with h | h
                · simp only [List.append_assoc, List.mem_append] at h
                  rcases h with h | h
                  · exact Or.inl h
                  · simp at h
                    rcases h with h | h | h | h
                    · exact Or.inr (by rw [h]; trivial)
                    · exact Or.inr (by rw [h]; trivial)
                    · obtain ⟨c, hcc⟩ := processFollow_content fresp.chunks e h
                      exact Or.inr (by rw [hcc]; trivial)
                    · exact Or.inr (by rw [h]; simpa [eventFromLoop] using hn)
                · exact Or.inr h
      · simp only [processToolCalls, hf, if_neg hn] at he
        exact ih st e he

theorem processChunkStep_events (env : NativeEnv) (ch : OllamaChunk) (st : NState) :
    ∀ e ∈ ((processChunkStep env ch st).1).events, e ∈ st.events ∨ eventFromLoop env e := by
  intro e he
  cases hm : ch.message with
  | none =>
    simp only [processChunkStep, hm] at he
    exact Or.inl he
  | some m =>
    cases hc : m.content with
    | none =>
      cases ht : m.tool_calls with
      | none =>
        simp only [processChunkStep, hm, hc, ht] at he
        exact Or.inl he
      | some tcs =>
        simp only [processChunkStep, hm, hc, ht] at he
        by_cases htn : tcs = []
        · rw [if_neg (not_not_intro htn)] at he
          exact Or.inl he
        · rw [if_pos htn] at he
          rcases processToolCalls_events env tcs tcs st e he with h | h
          · exact Or.inl h
          · exact Or.inr h
    | some c =>
      have hsplit : ∀ x, x ∈ st.events ++ [SEvent.content c] → x ∈ st.events ∨ eventFromLoop env x := by
        intro x hx
        rcases List.mem_append.1 hx with h | h
        · exact Or.inl h
        · simp at h
          exact Or.inr (by rw [h]; trivial)
      cases ht : m.tool_calls with
      | none =>
        simp only [processChunkStep, hm, hc, ht] at he
        by_cases hce : c = ""
        · rw [if_neg (not_not_intro hce)] at he
          exact Or.inl he
        · rw [if_pos hce] at he
          exact hsplit e he
      | some tcs =>
        simp only [processChunkStep, hm, hc, ht] at he
        by_cases hce : c = ""
        · rw [if_neg (not_not_intro hce)] at he
          by_cases htn : tcs = []
          · rw [if_neg (not_not_intro htn)] at he
            exact Or.inl he
          · rw [if_pos htn] at he
            rcases processToolCalls_events env tcs tcs st e he with h | h
            · exact Or.inl h
            · exact Or.inr h
        · rw [if_pos hce] at he
          by_cases htn : tcs = []
          · rw [if_neg (not_not_intro htn)] at he
            exact hsplit e he
          · rw [if_pos htn] at he
            rcases processToolCalls_events env tcs tcs _ e he with h | h
            · exact hsplit e h
            · exact Or.inr h

theorem processChunks_events (env : NativeEnv) :
    ∀ chunks st e, e ∈ ((processChunks env chunks st).1).events →
      e ∈ st.events ∨ eventFromLoop env e := by
  intro chunks
  induction chunks with
  | nil =>
    intro st e he
    simp only [processChunks] at he
    exact Or.inl he
  | cons ch rest ih =>
    intro st e he
    simp only [processChunks] at he
    by_cases h2 : (processChunkStep env ch st).2
    · simp only [h2, if_true] at he
      exact processChunkStep_events env ch st e he
    · simp only [h2, if_false] at he
      by_cases hd : ch.done = true
      · simp only [hd, if_true] at he
        exact processChunkStep_events env ch st e he
      · simp only [hd, if_false] at he
        rcases ih _ e he with h | h
        · exact processChunkStep_events env ch st e h
        · exact Or.inr h

def isErrorEvent : SEvent → Bool
  | SEvent.error _ => true
  | _ => false

theorem chat_stream_events (env : NativeEnv) (messages : List (String × String)) :
    ∀ e ∈ (chat_stream env messages).events,
      eventFromLoop env e ∨ ∃ err, env.primary.streamError = some err ∧ e = SEvent.error err := by
  intro e he
  simp only [chat_stream] at he
  by_cases h2 : (processChunks env env.primary.chunks
      ⟨[], messages.map fun rc => OMsg.mk rc.1 rc.2 none, 0, []⟩).2 = true
  · simp only [h2, if_true] at he
    rcases processChunks_events env _ _ e he with h | h
    · simp at h
    · exact Or.inl h
  · simp only [Bool.not_eq_true] at h2
    simp only [h2, Bool.false_eq_true, if_false] at he
    cases hse : env.primary.streamError with
    | none =>
      simp only [hse] at he
      rcases processChunks_events env _ _ e he with h | h
      · simp at h
      · exact Or.inl h
    | some err =>
      simp only [hse] at he
      rcases List.mem_append.1 he with h | h
      · rcases processChunks_events env _ _ e h with h1 | h1
        · simp at h1
        · exact Or.inl h1
      · simp at h
        exact Or.inr ⟨err, rfl, h⟩

theorem chat_stream_loop_error_free (env : NativeEnv) (messages : List (String × String)) :
    ((processChunks env env.primary.chunks
      ⟨[], messages.map fun rc => OMsg.mk rc.1 rc.2 none, 0, []⟩).1).events.countP
        isErrorEvent = 0 := by
  rw [List.countP_eq_zero]
  intro a ha
  rcases processChunks_events env _ _ a ha with h | h
  · simp at h
  · cases a with
    | error msg => simp [eventFromLoop] at h
    | content s => simp [isErrorEvent]
    | tool_call t p => simp [isErrorEvent]
    | tool_result t r => simp [isErrorEvent]
    | tool_error t er => simp [isErrorEvent]

theorem chat_stream_error_cases (env : NativeEnv) (messages : List (String × String)) :
    (chat_stream env messages).events.countP isErrorEvent = 0 ∨
    ∃ err pre, env.primary.streamError = some err ∧
      (chat_stream env messages).events = pre ++ [SEvent.error err] ∧
      pre.countP isErrorEvent = 0 := by
  have hfree := chat_stream_loop_error_free env messages
  by_cases h2 : (processChunks env env.primary.chunks
      ⟨[], messages.map fun rc => OMsg.mk rc.1 rc.2 none, 0, []⟩).2 = true
  · left
    simpa [chat_stream, h2] using hfree
  · simp only [Bool.not_eq_true] at h2
    cases hse : env.primary.streamError with
    | none =>
      left
      simpa [chat_stream, h2, hse] using hfree
    | some err =>
      right
      refine ⟨err, _, rfl, ?_, hfree⟩
      simp [chat_stream, h2, hse]

theorem countDone_map_data (l : List SEvent) :
    (l.map SSEItem.data).count SSEItem.doneMarker = 0 := by
  induction l with
  | nil => rfl
  | cons a rest ih => simp [List.count_cons, ih]

def c1ConnEnv : NativeEnv :=
  ⟨⟨[], some "connection refused"⟩, [], [], fun _ _ => Except.ok ""⟩

def c1MidEnv : NativeEnv :=
  ⟨⟨[⟨some ⟨some "Hola", none⟩, false⟩], some "connection reset"⟩, [], [],
   fun _ _ => Except.ok ""⟩

/-- C1: the claim says a turn's stream never contains both an `error` event
and the `[DONE]` marker. With an unreachable provider, `Agent.chat_stream`
yields an `error` chunk and returns normally, after which `generate` in
main.py still emits `data: [DONE]`; and when the primary stream fails after
some chunks, the already-yielded `content` events precede the `error`
event, and the `[DONE]` marker still follows — the stream contains both. -/
theorem spec_c1_cx_error_then_done :
    generate c1ConnEnv [("user", "hola")] =
      [SSEItem.data (SEvent.error "connection refused"), SSEItem.doneMarker] ∧
    generate c1MidEnv [("user", "hola")] =
      [SSEItem.data (SEvent.content "Hola"), SSEItem.data (SEvent.error "connection reset"),
       SSEItem.doneMarker] ∧
    SSEItem.data (SEvent.error "connection refused") ∈ generate c1ConnEnv [("user", "hola")] ∧
    SSEItem.doneMarker ∈ generate c1ConnEnv [("user", "hola")] := by
  refine ⟨rfl, rfl, ?_, ?_⟩ <;> decide

/-- C1 (amended): each HTTP-streamed turn ends with exactly one `[DONE]`
marker, always the last item; `error` events are not an alternative
terminal at the HTTP layer: at most one can occur per turn, and when it
does it is the last event before the `[DONE]` marker, after any content or
tool events already emitted (which remain in the stream, as the spec's
ERROR state says) — so an erroring turn carries both the error event and
the done marker. -/
theorem spec_c1_one_terminal_marker (env : NativeEnv) (messages : List (String × String)) :
    (generate env messages).count SSEItem.doneMarker = 1 ∧
    (generate env messages).getLast? = some SSEItem.doneMarker ∧
    (∀ e, SEvent.error e ∈ (chat_stream env messages).events →
      (chat_stream env messages).events.getLast? = some (SEvent.error e) ∧
      (chat_stream env messages).events.countP isErrorEvent = 1) := by
  refine ⟨?_, ?_, ?_⟩
  · simp [generate, List.count_append, countDone_map_data]
  · simp [generate]
  · intro e he
    rcases chat_stream_error_cases env messages with h0 | ⟨err, pre, hse, hev, hp0⟩
    · exfalso
      have h1 := List.countP_eq_zero.1 h0 _ he
      simp [isErrorEvent] at h1
    · have heq : e = err := by
        rw [hev] at he
        rcases List.mem_append.1 he with h | h
        · exfalso
          have h1 := List.countP_eq_zero.1 hp0 _ h
          simp [isErrorEvent] at h1
        · simpa using h
      subst heq
      constructor
      · rw [hev]
        simp
      · rw [hev]
        simp [List.countP_append, hp0, isErrorEvent]

theorem spec_c1_witness :
    (chat_stream c1MidEnv [("user", "hola")]).events.getLast? =
      some (SEvent.error "connection reset") ∧
    (chat_stream c1MidEnv [("user", "hola")]).events.countP isErrorEvent = 1 :=
  (spec_c1_one_terminal_marker c1MidEnv [("user", "hola")]).2.2 "connection reset" (by decide)

def c2UnknownEnv : NativeEnv :=
  ⟨⟨[⟨some ⟨none, some [⟨some ⟨"nonexistent", []⟩⟩]⟩, false⟩,
     ⟨some ⟨some "resposta", none⟩, true⟩], none⟩,
   [], ["spell_check"], fun _ _ => Except.ok "unused"⟩

/-- C2: the claim says a request for an unregistered tool emits exactly one
`tool_error` event; in `Agent.chat_stream` the `if tool_name in self.tools`
branch has no `else`, so the unknown request is skipped silently and the
stream contains zero `tool_error` events. -/
theorem spec_c2_cx_unknown_tool_silent :
    (chat_stream c2UnknownEnv [("user", "hola")]).events = [SEvent.content "resposta"] ∧
    ((chat_stream c2UnknownEnv [("user", "hola")]).events.countP isToolErrorEvent) = 0 := by
  refine ⟨rfl, ?_⟩
  decide

/-- C2 (amended): the code emits no `tool_error` at all for a tool name
absent from the registry: every `tool_error` event in a native-path stream
names a registered tool (the unknown request is skipped silently), the
fallback path answers a parsed call to an unknown tool with a
`Tool ... is not available.` content message after exactly one model call,
and the stream still reaches its `[DONE]` terminal marker in every case. -/
theorem spec_c2_no_tool_error_for_unknown_tool :
    (∀ (env : NativeEnv) (messages : List (String × String)) (n err : String),
      SEvent.tool_error n err ∈ (chat_stream env messages).events → n ∈ env.toolNames) ∧
    (∀ (env : NativeEnv) (messages : List (String × String)),
      (generate env messages).getLast? = some SSEItem.doneMarker) ∧
    (∀ (s : HybridState) (o : FallbackOracle) (messages : List LCMessage)
        (content : String) (tc : ToolCallParse),
      modelResponseAt o 0 = LCMessage.ai content →
      extract_tool_call_from_text content = some tc →
      (toolNamesOf s.tools).contains tc.name = false →
      call_with_fallback_tools s o messages =
        ⟨LCMessage.ai ("Tool " ++ tc.name ++ " is not available."), 1,
         [create_fallback_prompt s messages]⟩) := by
  refine ⟨?_, ?_, ?_⟩
  · intro env messages n err hmem
    rcases chat_stream_events env messages _ hmem with h | ⟨e', _, hee⟩
    · simpa [eventFromLoop] using h
    · simp at hee
  · intro env messages
    simp [generate]
  · intro s o messages content tc h0 h1 h2
    have h2' : ¬ tc.name ∈ toolNamesOf s.tools := by
      intro hmem
      have : (toolNamesOf s.tools).contains tc.name = true := List.elem_eq_true_of_mem hmem
      rw [h2] at this
      cases this
    simp [call_with_fallback_tools, h0, h1, h2']

def c2FallbackOracle : FallbackOracle :=
  ⟨[LCMessage.ai "```tool_code\nunknown_tool(text=\"hola\")\n```"], fun _ _ => Except.ok ""⟩

theorem spec_c2_witness :
    call_with_fallback_tools c4State c2FallbackOracle [LCMessage.human "hola"] =
      ⟨LCMessage.ai "Tool unknown_tool is not available.", 1,
       [create_fallback_prompt c4State [LCMessage.human "hola"]]⟩ :=
  spec_c2_no_tool_error_for_unknown_tool.2.2 c4State c2FallbackOracle [LCMessage.human "hola"]
    "```tool_code\nunknown_tool(text=\"hola\")\n```" ⟨"unknown_tool", [("text", PyVal.str "hola")]⟩
    rfl (by decide) (by decide)

theorem processFollow_no_toolresult (chunks : List OllamaChunk) :
    (processFollow chunks).1.countP isToolResultEvent = 0 := by
  rw [List.countP_eq_zero]
  intro e he
  obtain ⟨c, rfl⟩ := processFollow_content chunks e he
  simp [isToolResultEvent]

theorem processToolCalls_toolmsg (env : NativeEnv) (all : List OllamaToolCall) :
    ∀ tcs st,
      ((processToolCalls env all tcs st).1).msgs.countP isToolMsg +
        st.events.countP isToolResultEvent =
      st.msgs.countP isToolMsg +
        ((processToolCalls env all tcs st).1).events.countP isToolResultEvent := by
  intro tcs
  induction tcs with
  | nil => intro st; simp [processToolCalls]
  | cons tc rest ih =>
    intro st
    cases hf : tc.function with
    | none =>
      simp only [processToolCalls, hf]
      exact ih st
    | some f =>
      by_cases hn : f.name ∈ env.toolNames
      · cases hex : env.exec f.name f.arguments with
        | error err =>
          simp only [processToolCalls, hf, if_pos hn, hex]
          have h := ih (NState.mk
            (st.events ++ [SEvent.tool_call f.name f.arguments] ++ [SEvent.tool_error f.name err])
            st.msgs st.followIdx st.requests)
          simp [List.countP_append, List.countP_cons, isToolResultEvent, isToolMsg] at h ⊢
          omega
        | ok result =>
          cases hfu : env.followUps.getD st.followIdx (Except.ok ⟨[], none⟩) with
          | error err =>
            simp only [processToolCalls, hf, if_pos hn, hex, hfu]
            have h := ih (NState.mk
              (st.events ++ [SEvent.tool_call f.name f.arguments] ++
                [SEvent.tool_result f.name result] ++ [SEvent.tool_error f.name err])
              (st.msgs ++ [OMsg.mk "assistant" "" (some all), OMsg.mk "tool" result none])
              (st.followIdx + 1) st.requests)
            simp [List.countP_append, List.countP_cons, isToolResultEvent, isToolMsg] at h ⊢
            omega
          | ok fresp =>
            simp only [processToolCalls, hf, if_pos hn, hex, hfu]
            cases hp : (processFollow fresp.chunks).2 with
            | true =>
              have h0 := processFollow_no_toolresult fresp.chunks
              simp [List.countP_append, List.countP_cons, isToolResultEvent, isToolMsg, h0, hp]
              omega
            | false =>
              cases hse : fresp.streamError with
              | some e2 =>
                have h := ih (NState.mk
                  (st.events ++ [SEvent.tool_call f.name f.arguments] ++
                    [SEvent.tool_result f.name result] ++ (processFollow fresp.chunks).1 ++
                    [SEvent.tool_error f.name e2])
                  (st.msgs ++ [OMsg.mk "assistant" "" (some all), OMsg.mk "tool" result none])
                  (st.followIdx + 1)
                  (st.requests ++ [st.msgs ++ [OMsg.mk "assistant" "" (some all), OMsg.mk "tool" result none]]))
                have h0 := processFollow_no_toolresult fresp.chunks
                simp [List.countP_append, List.countP_cons, isToolResultEvent, isToolMsg, h0, hp, hse] at h ⊢
                omega
              | none =>
                have h := ih (NState.mk
                  (st.events ++ [SEvent.tool_call f.name f.arguments] ++
                    [SEvent.tool_result f.name result] ++ (processFollow fresp.chunks).1)
                  (st.msgs ++ [OMsg.mk "assistant" "" (some all), OMsg.mk "tool" result none])
                  (st.followIdx + 1)
                  (st.requests ++ [st.msgs ++ [OMsg.mk "assistant" "" (some all), OMsg.mk "tool" result none]]))
                have h0 := processFollow_no_toolresult fresp.chunks
                simp [List.countP_append, List.countP_cons, isToolResultEvent, isToolMsg, h0, hp, hse] at h ⊢
                omega
      · simp only [processToolCalls, hf, if_neg hn]
        exact ih st

theorem processChunkStep_toolmsg (env : NativeEnv) (ch : OllamaChunk) (st : NState) :
    ((processChunkStep env ch st).1).msgs.countP isToolMsg +
      st.events.countP isToolResultEvent =
    st.msgs.countP isToolMsg +
      ((processChunkStep env ch st).1).events.countP isToolResultEvent := by
  cases hm : ch.message with
  | none => simp [processChunkStep, hm]
  | some m =>
    cases hc : m.content with
    | none =>
      cases ht : m.tool_calls with
      | none => simp [processChunkStep, hm, hc, ht]
      | some tcs =>
        simp only [processChunkStep, hm, hc, ht]
        by_cases htn : tcs = []
        · rw [if_neg (not_not_intro htn)]
        · rw [if_pos htn]
          exact processToolCalls_toolmsg env tcs tcs st
    | some c =>
      cases ht : m.tool_calls with
      | none =>
        simp only [processChunkStep, hm, hc, ht]
        by_cases hce : c = ""
        · rw [if_neg (not_not_intro hce)]
        · rw [if_pos hce]
          simp [List.countP_append, isToolResultEvent]
      | some tcs =>
        simp only [processChunkStep, hm, hc, ht]
        by_cases hce : c = ""
        · rw [if_neg (not_not_intro hce)]
          by_cases htn : tcs = []
          · rw [if_neg (not_not_intro htn)]
          · rw [if_pos htn]
            exact processToolCalls_toolmsg env tcs tcs st
        · rw [if_pos hce]
          by_cases htn : tcs = []
          · rw [if_neg (not_not_intro htn)]
            simp [List.countP_append, isToolResultEvent]
          · rw [if_pos htn]
            have h := processToolCalls_toolmsg env tcs tcs
              (NState.mk (st.events ++ [SEvent.content c]) st.msgs st.followIdx st.requests)
            simp [List.countP_append, List.countP_cons, isToolResultEvent] at h ⊢
            omega

theorem processChunks_toolmsg (env : NativeEnv) :
    ∀ chunks st,
      ((processChunks env chunks st).1).msgs.countP isToolMsg +
        st.events.countP isToolResultEvent =
      st.msgs.countP isToolMsg +
        ((processChunks env chunks st).1).events.countP isToolResultEvent := by
  intro chunks
  induction chunks with
  | nil => intro st; simp [processChunks]
  | cons ch rest ih =>
    intro st
    simp only [processChunks]
    by_cases h2 : (processChunkStep env ch st).2 = true
    · simp only [h2, if_true]
      exact processChunkStep_toolmsg env ch st
    · simp only [Bool.not_eq_true] at h2
      simp only [h2]
      by_cases hd : ch.done = true
      · simp only [hd, if_true]
        simp
        exact processChunkStep_toolmsg env ch st
      · simp only [Bool.not_eq_true] at hd
        simp only [hd]
        simp
        have hstep := processChunkStep_toolmsg env ch st
        have hrec := ih (processChunkStep env ch st).1
        omega

theorem chat_stream_toolmsg (env : NativeEnv) (messages : List (String × String)) :
    (chat_stream env messages).msgs.countP isToolMsg =
      (messages.map fun rc => OMsg.mk rc.1 rc.2 none).countP isToolMsg +
      (chat_stream env messages).events.countP isToolResultEvent := by
  have h := processChunks_toolmsg env env.primary.chunks
    (NState.mk [] (messages.map fun rc => OMsg.mk rc.1 rc.2 none) 0 [])
  simp only [List.countP_nil] at h
  by_cases h2 : (processChunks env env.primary.chunks
      ⟨[], messages.map fun rc => OMsg.mk rc.1 rc.2 none, 0, []⟩).2 = true
  · simp only [chat_stream, h2, if_true]
    omega
  · simp only [Bool.not_eq_true] at h2
    cases hse : env.primary.streamError with
    | none =>
      simp only [chat_stream, h2, Bool.false_eq_true, if_false, hse]
      omega
    | some e =>
      simp only [chat_stream, h2, Bool.false_eq_true, if_false, hse]
      simp [List.countP_append, List.countP_cons, isToolResultEvent] at h ⊢
      omega

def c5Env : NativeEnv :=
  ⟨⟨[⟨some ⟨none, some [⟨some ⟨"spell_check", [("text", "Hola mon")]⟩⟩]⟩, true⟩], none⟩,
   [], ["spell_check"], fun _ _ => Except.error "network timeout"⟩

/-- C5: the claim says a failing native-path tool still appends a tool-role
message with the error text before continuing; in `agent.py` the `except`
branch only yields `tool_error` (lines 213-220) — the message appends and
the follow-up request live in the success branch — so after the failure the
message list is unchanged and no continuation request is issued. -/
theorem spec_c5_cx_no_error_message_appended :
    chat_stream c5Env [("user", "Corregeix: Hola mon")] =
      ⟨[SEvent.tool_call "spell_check" [("text", "Hola mon")],
        SEvent.tool_error "spell_check" "network timeout"],
       [⟨"user", "Corregeix: Hola mon", none⟩], []⟩ ∧
    (chat_stream c5Env [("user", "Corregeix: Hola mon")]).msgs.countP isToolMsg = 0 ∧
    (chat_stream c5Env [("user", "Corregeix: Hola mon")]).requests = [] := by
  refine ⟨rfl, ?_, rfl⟩
  decide

/-- C5 (amended): a failing native-path tool execution yields `tool_call`
then `tool_error` and the turn continues, but no tool-role message is
appended for the failed call and no continuation request is issued for it —
in any stream, tool-role messages are appended exactly once per successful
execution (one per `tool_result` event), never for failures. -/
theorem spec_c5_failure_no_tool_message (env : NativeEnv)
    (messages : List (String × String)) (name : String) (args : NArgs) (err : String)
    (hmem : name ∈ env.toolNames)
    (hprim : env.primary.chunks = [⟨some ⟨none, some [⟨some ⟨name, args⟩⟩]⟩, true⟩])
    (hexec : env.exec name args = Except.error err) :
    chat_stream env messages =
      ⟨[SEvent.tool_call name args, SEvent.tool_error name err],
       messages.map fun rc => OMsg.mk rc.1 rc.2 none, []⟩ ∧
    (∀ (env' : NativeEnv) (messages' : List (String × String)),
      (chat_stream env' messages').msgs.countP isToolMsg =
        (messages'.map fun rc => OMsg.mk rc.1 rc.2 none).countP isToolMsg +
        (chat_stream env' messages').events.countP isToolResultEvent) := by
  refine ⟨?_, fun env' messages' => chat_stream_toolmsg env' messages'⟩
  simp only [chat_stream, hprim]
  simp only [processChunks, processChunkStep, processToolCalls, hexec, hmem, if_true]
  simp

theorem spec_c5_witness :
    chat_stream c5Env [("user", "hola")] =
      ⟨[SEvent.tool_call "spell_check" [("text", "Hola mon")],
        SEvent.tool_error "spell_check" "network timeout"],
       [⟨"user", "hola", none⟩], []⟩ :=
  (spec_c5_failure_no_tool_message c5Env [("user", "hola")] "spell_check"
    [("text", "Hola mon")] "network timeout" (by decide) rfl rfl).1

/- Scanning lemmas used to characterise the fallback parser on well-formed
   inputs (claim C3). -/

theorem startsWith_append_self (p rest : List Char) : startsWith p (p ++ rest) = true := by
  induction p with
  | nil => rfl
  | cons c cs ih => simp [startsWith, ih]

theorem splitFirst_append_self (pat rest : List Char) :
    splitFirst pat (pat ++ rest) = some ([], rest) := by
  cases pat with
  | nil =>
    cases rest with
    | nil => rfl
    | cons c cs => simp [splitFirst, startsWith]
  | cons p ps =>
    have hsw : startsWith (p :: ps) (p :: (ps ++ rest)) = true := startsWith_append_self (p :: ps) rest
    simp only [List.cons_append, splitFirst, List.append_eq]
    rw [if_pos hsw]
    simp [List.length_cons, List.drop_succ_cons, List.drop_left]

theorem splitFirst_append_of_head_notin (c₀ : Char) (ps xs s : List Char) (h : c₀ ∉ xs) :
    splitFirst (c₀ :: ps) (xs ++ s) =
      match splitFirst (c₀ :: ps) s with
      | some pr => some (xs ++ pr.1, pr.2)
      | none => none := by
  induction xs with
  | nil =>
    cases h : splitFirst (c₀ :: ps) s with
    | none => simp [List.append_eq, h]
    | some pr => simp [List.append_eq, h]
  | cons x xs' ih =>
    have hx : x ≠ c₀ := fun he => h (by simp [he])
    have hx' : c₀ ∉ xs' := fun he => h (List.mem_cons_of_mem _ he)
    have hbe : (c₀ == x) = false := by
      simp only [beq_eq_false_iff_ne, ne_eq]
      exact fun he => hx he.symm
    have hsw : startsWith (c₀ :: ps) (x :: (xs' ++ s)) = false := by
      simp [startsWith, hbe]
    simp only [List.cons_append, splitFirst, hsw, Bool.false_eq_true, if_false, List.append_eq]
    rw [ih hx']
    cases splitFirst (c₀ :: ps) s with
    | none => rfl
    | some pr => rfl

theorem splitFirstChar_append (sep : Char) (k v : List Char) (h : sep ∉ k) :
    splitFirstChar sep (k ++ sep :: v) = some (k, v) := by
  induction k with
  | nil => simp [splitFirstChar]
  | cons c cs ih =>
    have hc : (c == sep) = false := by
      simp only [beq_eq_false_iff_ne, ne_eq]
      exact fun he => h (by simp [he])
    simp only [List.cons_append, splitFirstChar, hc, Bool.false_eq_true, if_false, List.append_eq]
    rw [ih (fun hm => h (List.mem_cons_of_mem _ hm))]

theorem upToChar_append (t : Char) (xs ys : List Char) (h : t ∉ xs) :
    upToChar t (xs ++ t :: ys) = some xs := by
  induction xs with
  | nil => simp [upToChar]
  | cons c cs ih =>
    have hc : (c == t) = false := by
      simp only [beq_eq_false_iff_ne, ne_eq]
      exact fun he => h (by simp [he])
    simp only [List.cons_append, upToChar, hc, Bool.false_eq_true, if_false, List.append_eq]
    rw [ih (fun hm => h (List.mem_cons_of_mem _ hm))]

theorem splitChar_no_sep (sep : Char) (s : List Char) (h : sep ∉ s) :
    splitChar sep s = [s] := by
  induction s with
  | nil => rfl
  | cons c cs ih =>
    have hc : (c == sep) = false := by
      simp only [beq_eq_false_iff_ne, ne_eq]
      exact fun he => h (by simp [he])
    simp only [splitChar, hc, Bool.false_eq_true, if_false]
    rw [ih (fun hm => h (List.mem_cons_of_mem _ hm))]

theorem splitChar_append (sep : Char) (xs ys : List Char) (h : sep ∉ xs) :
    splitChar sep (xs ++ sep :: ys) = xs :: splitChar sep ys := by
  induction xs with
  | nil => simp [splitChar]
  | cons c cs ih =>
    have hc : (c == sep) = false := by
      simp only [beq_eq_false_iff_ne, ne_eq]
      exact fun he => h (by simp [he])
    simp only [List.cons_append, splitChar, hc, Bool.false_eq_true, if_false, List.append_eq]
    rw [ih (fun hm => h (List.mem_cons_of_mem _ hm))]

theorem takeWhile_append_not (p : Char → Bool) (xs : List Char) (y : Char) (ys : List Char)
    (hall : ∀ c ∈ xs, p c = true) (hy : p y = false) :
    (xs ++ y :: ys).takeWhile p = xs := by
  induction xs with
  | nil => simp [List.takeWhile_cons, hy]
  | cons c cs ih =>
    have hc : p c = true := hall c (by simp)
    have ih' := ih (fun d hd => hall d (List.mem_cons_of_mem _ hd))
    simp [List.cons_append, List.takeWhile_cons, hc, ih']

theorem dropWhile_append_not (p : Char → Bool) (xs : List Char) (y : Char) (ys : List Char)
    (hall : ∀ c ∈ xs, p c = true) (hy : p y = false) :
    (xs ++ y :: ys).dropWhile p = y :: ys := by
  induction xs with
  | nil => simp [List.dropWhile_cons, hy]
  | cons c cs ih =>
    have hc : p c = true := hall c (by simp)
    have ih' := ih (fun d hd => hall d (List.mem_cons_of_mem _ hd))
    simp [List.cons_append, List.dropWhile_cons, hc, ih']

theorem dropWhile_all_false (p : Char → Bool) (xs : List Char)
    (hall : ∀ c ∈ xs, p c = false) : xs.dropWhile p = xs := by
  cases xs with
  | nil => rfl
  | cons c cs => simp [List.dropWhile_cons, hall c (by simp)]

theorem mem_dropWhile_of_neg (p : Char → Bool) (c : Char) :
    ∀ s : List Char, c ∈ s → p c = false → c ∈ s.dropWhile p := by
  intro s
  induction s with
  | nil => intro h _; cases h
  | cons a t ih =>
    intro hm hc
    cases ha : p a with
    | true =>
      rcases List.mem_cons.1 hm with rfl | hm'
      · rw [ha] at hc; cases hc
      · simp only [List.dropWhile_cons, ha, if_true]
        exact ih hm' hc
    | false =>
      simp only [List.dropWhile_cons, ha, Bool.false_eq_true, if_false]
      exact hm

theorem space_not_word (c : Char) (h : pyIsSpace c = true) : isWordChar c = false := by
  simp only [pyIsSpace, Bool.or_eq_true, beq_iff_eq] at h
  rcases h with ((((((((h | h) | h) | h) | h) | h) | h) | h) | h) | h <;> subst h <;> decide

theorem word_not_space (c : Char) (h : isWordChar c = true) : pyIsSpace c = false := by
  cases hs : pyIsSpace c with
  | false => rfl
  | true => rw [space_not_word c hs] at h; cases h

theorem word_ne_of (c d : Char) (h : isWordChar c = true) (hd : isWordChar d = false) : c ≠ d := by
  intro he
  rw [he, hd] at h
  cases h

theorem not_mem_of_word (xs : List Char) (d : Char) (hall : ∀ c ∈ xs, isWordChar c = true)
    (hd : isWordChar d = false) : d ∉ xs := by
  intro hm
  rw [hall d hm] at hd
  cases hd

theorem pyStrip_eq_self (s : List Char) (h1 : s.dropWhile pyIsSpace = s)
    (h2 : s.reverse.dropWhile pyIsSpace = s.reverse) : pyStrip s = s := by
  simp [pyStrip, h1, h2]

theorem dropWhile_head_false (p : Char → Bool) (b : Char) (t : List Char)
    (h : (b :: t).dropWhile p = b :: t) : p b = false := by
  cases hb : p b with
  | false => rfl
  | true =>
    rw [List.dropWhile_cons, hb, if_pos rfl] at h
    have hle := (List.dropWhile_suffix (l := t) p).length_le
    rw [h] at hle
    simp at hle

theorem pyStrip_wrap (body : List Char) (hne : body ≠ [])
    (h1 : body.dropWhile pyIsSpace = body)
    (h2 : body.reverse.dropWhile pyIsSpace = body.reverse) :
    pyStrip ('\n' :: (body ++ ['\n'])) = body := by
  obtain ⟨b, t, rfl⟩ : ∃ b t, body = b :: t := by
    cases body with
    | nil => exact absurd rfl hne
    | cons b t => exact ⟨b, t, rfl⟩
  have hb : pyIsSpace b = false := dropWhile_head_false _ _ _ h1
  have hnl : pyIsSpace '\n' = true := by decide
  have step1 : (('\n' : Char) :: (b :: (t ++ ['\n']))).dropWhile pyIsSpace =
      b :: (t ++ ['\n']) := by
    rw [List.dropWhile_cons, hnl, if_pos rfl, List.dropWhile_cons, hb]
    simp
  have step2 : (b :: (t ++ ['\n'])).reverse.dropWhile pyIsSpace = (b :: t).reverse := by
    have hrev : (b :: (t ++ ['\n'])).reverse = '\n' :: (b :: t).reverse := by
      rw [show (b :: (t ++ ['\n'])) = (b :: t) ++ ['\n'] by simp]
      simp [List.reverse_append]
    rw [hrev, List.dropWhile_cons, hnl, if_pos rfl]
    exact h2
  simp only [List.cons_append]
  rw [pyStrip, step1, step2, List.reverse_reverse]

theorem extractFuncCall_call (fname argsStr : List Char) (hne : fname ≠ [])
    (hw : ∀ c ∈ fname, isWordChar c = true) (hp : (')' : Char) ∉ argsStr) :
    extractFuncCall (fname ++ '(' :: (argsStr ++ [')'])) = some (fname, argsStr) := by
  cases fname with
  | nil => exact absurd rfl hne
  | cons c cs =>
    have hc : isWordChar c = true := hw c (by simp)
    have htake : ((c :: cs) ++ '(' :: (argsStr ++ [')'])).takeWhile isWordChar = c :: cs :=
      takeWhile_append_not isWordChar (c :: cs) '(' _ hw (by decide)
    have hdrop : ((c :: cs) ++ '(' :: (argsStr ++ [')'])).dropWhile isWordChar =
        '(' :: (argsStr ++ [')']) :=
      dropWhile_append_not isWordChar (c :: cs) '(' _ hw (by decide)
    have hup : upToChar ')' (argsStr ++ [')']) = some argsStr := upToChar_append ')' argsStr [] hp
    simp only [List.cons_append] at htake hdrop ⊢
    rw [extractFuncCall, if_pos hc, hdrop]
    simp [htake, hup]

/- Well-formedness of the argument text quantified over in claim C3: keys
   are nonempty word-character runs, values are ASCII and carry no comma,
   closing paren or backtick and no surrounding whitespace. Values are kept
   ASCII because Python's isdigit()/int()/float() additionally accept
   Unicode decimal digits and str.strip() strips Unicode whitespace, which
   the character-level model does not cover. -/

abbrev goodKey (k : List Char) : Prop := k ≠ [] ∧ ∀ c ∈ k, isWordChar c = true

abbrev goodVal (v : List Char) : Prop :=
  (',' : Char) ∉ v ∧ (')' : Char) ∉ v ∧ ('\x60' : Char) ∉ v ∧
  v.dropWhile pyIsSpace = v ∧ v.reverse.dropWhile pyIsSpace = v.reverse ∧
  ∀ c ∈ v, c.toNat < 128

/-- One `key=value` piece of the argument text. -/
def pairPiece (kv : List Char × List Char) : List Char := kv.1 ++ '=' :: kv.2

/-- The `", "`-joined argument text `k1=v1, k2=v2, ...`. -/
def renderArgs : List (List Char) → List Char
  | [] => []
  | [p] => p
  | p :: rest => p ++ ',' :: ' ' :: renderArgs rest

theorem renderArgs_head (p : List Char) (rest : List (List Char)) :
    ∃ tl, renderArgs (p :: rest) = p ++ tl := by
  cases rest with
  | nil => exact ⟨[], by simp [renderArgs]⟩
  | cons q rs => exact ⟨',' :: ' ' :: renderArgs (q :: rs), rfl⟩

theorem mem_renderArgs : ∀ (pieces : List (List Char)) (c : Char), c ∈ renderArgs pieces →
    (∃ p ∈ pieces, c ∈ p) ∨ c = ',' ∨ c = ' ' := by
  intro pieces
  induction pieces with
  | nil => intro c hc; simp [renderArgs] at hc
  | cons p rest ih =>
    cases rest with
    | nil =>
      intro c hc
      exact Or.inl ⟨p, by simp, by simpa [renderArgs] using hc⟩
    | cons q rs =>
      intro c hc
      rw [show renderArgs (p :: q :: rs) = p ++ ',' :: ' ' :: renderArgs (q :: rs) from rfl] at hc
      rcases List.mem_append.1 hc with h | h
      · exact Or.inl ⟨p, by simp, h⟩
      · rcases List.mem_cons.1 h with h | h
        · exact Or.inr (Or.inl h)
        · rcases List.mem_cons.1 h with h | h
          · exact Or.inr (Or.inr h)
          · rcases ih c h with ⟨p', hp', hcp'⟩ | h | h
            · exact Or.inl ⟨p', by simp [hp'], hcp'⟩
            · exact Or.inr (Or.inl h)
            · exact Or.inr (Or.inr h)

theorem pyStrip_ne_nil (s : List Char) (c : Char) (hc : c ∈ s) (hcs : pyIsSpace c = false) :
    pyStrip s ≠ [] := by
  intro h
  have h1 : c ∈ s.dropWhile pyIsSpace := mem_dropWhile_of_neg _ _ s hc hcs
  have h2 : c ∈ (s.dropWhile pyIsSpace).reverse := List.mem_reverse.2 h1
  have h3 : c ∈ (s.dropWhile pyIsSpace).reverse.dropWhile pyIsSpace :=
    mem_dropWhile_of_neg _ _ _ h2 hcs
  have h4 : c ∈ pyStrip s := List.mem_reverse.2 h3
  rw [h] at h4
  cases h4

theorem dictInsert_not_mem (m : List (String × PyVal)) (k : String) (v : PyVal)
    (h : k ∉ m.map Prod.fst) : dictInsert m k v = m ++ [(k, v)] := by
  induction m with
  | nil => rfl
  | cons e rest ih =>
    have hne : ¬ e.1 = k := by
      intro he
      exact h (by simp [he])
    cases e with
    | mk k' v' =>
      simp only [dictInsert]
      rw [if_neg hne]
      rw [ih (fun hm => h (by simp [hm]))]
      simp

theorem processPair_first (args : List (String × PyVal)) (k v : List Char)
    (hk : goodKey k) (hv1 : v.dropWhile pyIsSpace = v)
    (hv2 : v.reverse.dropWhile pyIsSpace = v.reverse) :
    processPair args (k ++ '=' :: v) =
      dictInsert args (String.mk k) (coerceValue (stripQuotes v)) := by
  have hkeq : ('=' : Char) ∉ k := not_mem_of_word k '=' hk.2 (by decide)
  have hks : pyStrip k = k := pyStrip_eq_self k
    (dropWhile_all_false _ _ (fun c hc => word_not_space c (hk.2 c hc)))
    (dropWhile_all_false _ _ (fun c hc => word_not_space c (hk.2 c (List.mem_reverse.1 hc))))
  have hvs : pyStrip v = v := pyStrip_eq_self v hv1 hv2
  simp only [processPair, splitFirstChar_append '=' k v hkeq]
  rw [hks, hvs]

theorem processPair_rest (args : List (String × PyVal)) (k v : List Char)
    (hk : goodKey k) (hv1 : v.dropWhile pyIsSpace = v)
    (hv2 : v.reverse.dropWhile pyIsSpace = v.reverse) :
    processPair args (' ' :: (k ++ '=' :: v)) =
      dictInsert args (String.mk k) (coerceValue (stripQuotes v)) := by
  have hkeq : ('=' : Char) ∉ k := not_mem_of_word k '=' hk.2 (by decide)
  have hnos : ∀ c ∈ k, pyIsSpace c = false := fun c hc => word_not_space c (hk.2 c hc)
  have hks : pyStrip (' ' :: k) = k := by
    rw [pyStrip, List.dropWhile_cons]
    rw [show pyIsSpace ' ' = true from by decide, if_pos rfl]
    rw [dropWhile_all_false _ _ hnos,
      dropWhile_all_false _ _ (fun c hc => hnos c (List.mem_reverse.1 hc)),
      List.reverse_reverse]
  have hvs : pyStrip v = v := pyStrip_eq_self v hv1 hv2
  have hsp : splitFirstChar '=' (' ' :: (k ++ '=' :: v)) = some (' ' :: k, v) := by
    simp only [splitFirstChar, show ((' ' : Char) == '=') = false from by decide,
      Bool.false_eq_true, if_false, splitFirstChar_append '=' k v hkeq]
  simp only [processPair, hsp]
  rw [hks, hvs]

theorem splitChar_renderArgs :
    ∀ (rest : List (List Char)) (p : List Char), (',' : Char) ∉ p →
      (∀ q ∈ rest, (',' : Char) ∉ q) →
      splitChar ',' (renderArgs (p :: rest)) = p :: rest.map (fun q => ' ' :: q) := by
  intro rest
  induction rest with
  | nil =>
    intro p hp _
    simp [renderArgs, splitChar_no_sep ',' p hp]
  | cons q rs ih =>
    intro p hp hrest
    rw [show renderArgs (p :: q :: rs) = p ++ ',' :: ' ' :: renderArgs (q :: rs) from rfl]
    rw [splitChar_append ',' p _ hp]
    have hq := ih q (hrest q (by simp)) (fun r hr => hrest r (by simp [hr]))
    simp only [splitChar, show ((' ' : Char) == ',') = false from by decide,
      Bool.false_eq_true, if_false]
    rw [hq]
    simp

theorem foldl_processPair_rest :
    ∀ (pairs : List (List Char × List Char)) (acc : List (String × PyVal)),
      (∀ kv ∈ pairs, goodKey kv.1 ∧ goodVal kv.2) →
      (pairs.map fun kv => String.mk kv.1).Nodup →
      (∀ kv ∈ pairs, String.mk kv.1 ∉ acc.map Prod.fst) →
      List.foldl processPair acc (pairs.map fun kv => ' ' :: pairPiece kv) =
        acc ++ pairs.map fun kv => (String.mk kv.1, coerceValue (stripQuotes kv.2)) := by
  intro pairs
  induction pairs with
  | nil => intro acc _ _ _; simp
  | cons kv rest ih =>
    intro acc hgood hnd hfresh
    obtain ⟨hk, hv⟩ := hgood kv (by simp)
    have hhead : String.mk kv.1 ∉ (rest.map fun kv => String.mk kv.1) :=
      (List.nodup_cons.1 (by simpa using hnd)).1
    simp only [List.map_cons, List.foldl_cons]
    rw [show pairPiece kv = kv.1 ++ '=' :: kv.2 from rfl]
    rw [processPair_rest acc kv.1 kv.2 hk hv.2.2.2.1 hv.2.2.2.2.1]
    rw [dictInsert_not_mem acc _ _ (hfresh kv (by simp))]
    rw [ih (acc ++ [(String.mk kv.1, coerceValue (stripQuotes kv.2))])
      (fun kv' h' => hgood kv' (by simp [h']))
      ((List.nodup_cons.1 (by simpa using hnd)).2)
      ?hfresh']
    · simp
    case hfresh' =>
      intro kv' h'
      intro hmem
      simp only [List.map_append] at hmem
      rcases List.mem_append.1 hmem with h | h
      · exact hfresh kv' (by simp [h']) h
      · simp at h
        rw [← h] at hhead
        exact hhead (List.mem_map_of_mem _ h')

theorem parseArgsCore_render (pairs : List (List Char × List Char))
    (hgood : ∀ kv ∈ pairs, goodKey kv.1 ∧ goodVal kv.2)
    (hnd : (pairs.map fun kv => String.mk kv.1).Nodup) :
    parseArgsCore (renderArgs (pairs.map pairPiece)) =
      pairs.map fun kv => (String.mk kv.1, coerceValue (stripQuotes kv.2)) := by
  cases pairs with
  | nil => rfl
  | cons kv rest =>
    obtain ⟨hk, hv⟩ := hgood kv (by simp)
    obtain ⟨b, t, hbt⟩ : ∃ b t, kv.1 = b :: t := by
      cases hkv : kv.1 with
      | nil => exact absurd hkv hk.1
      | cons b t => exact ⟨b, t, rfl⟩
    have hbw : isWordChar b = true := hk.2 b (by simp [hbt])
    have hbmem : b ∈ renderArgs ((kv :: rest).map pairPiece) := by
      obtain ⟨tl, htl⟩ := renderArgs_head (pairPiece kv) (rest.map pairPiece)
      rw [List.map_cons, htl]
      exact List.mem_append_left _ (by simp [pairPiece, hbt])
    have hguard : pyStrip (renderArgs ((kv :: rest).map pairPiece)) ≠ [] :=
      pyStrip_ne_nil _ b hbmem (word_not_space b hbw)
    have hcnp : ∀ q ∈ (kv :: rest).map pairPiece, (',' : Char) ∉ q := by
      intro q hq
      obtain ⟨kv', hkv', rfl⟩ := List.mem_map.1 hq
      obtain ⟨hk', hv'⟩ := hgood kv' hkv'
      intro hcm
      rcases List.mem_append.1 hcm with h | h
      · exact absurd (hk'.2 ',' h) (by decide)
      · rcases List.mem_cons.1 h with h | h
        · exact absurd h (by decide)
        · exact hv'.1 h
    rw [parseArgsCore, if_neg hguard]
    rw [List.map_cons, splitChar_renderArgs (rest.map pairPiece) (pairPiece kv)
      (hcnp (pairPiece kv) (by simp)) (fun q hq => hcnp q (by simp [hq]))]
    simp only [List.foldl_cons]
    rw [show pairPiece kv = kv.1 ++ '=' :: kv.2 from rfl]
    rw [processPair_first [] kv.1 kv.2 hk hv.2.2.2.1 hv.2.2.2.2.1]
    have hmaps : (rest.map pairPiece).map (fun q => ' ' :: q) =
        rest.map fun kv => ' ' :: pairPiece kv := by
      simp [List.map_map, Function.comp]
    rw [show dictInsert [] (String.mk kv.1) (coerceValue (stripQuotes kv.2)) =
      [(String.mk kv.1, coerceValue (stripQuotes kv.2))] from rfl]
    rw [hmaps, foldl_processPair_rest rest [(String.mk kv.1, coerceValue (stripQuotes kv.2))]
      (fun kv' h' => hgood kv' (by simp [h']))
      ((List.nodup_cons.1 (by simpa using hnd)).2)
      ?hfresh]
    · simp
    case hfresh =>
      intro kv' h' hmem
      simp at hmem
      have hhead : String.mk kv.1 ∉ (rest.map fun kv => String.mk kv.1) :=
        (List.nodup_cons.1 (by simpa using hnd)).1
      rw [← hmem] at hhead
      exact hhead (List.mem_map_of_mem _ h')

/-- The body of a function call inside a `tool_code` block. -/
def fcBody (fname argsStr : List Char) : List Char := fname ++ '(' :: (argsStr ++ [')'])

/-- A model-output text containing one fenced `tool_code` block with the
given body, with arbitrary backtick-free text before it and arbitrary text
after it. -/
def toolCodeText (pre body post : List Char) : List Char :=
  pre ++ (tcMarker ++ ('\n' :: (body ++ ('\n' :: (fenceMarker ++ post)))))

theorem extractCore_block (pre body post : List Char)
    (hpre : ('\x60' : Char) ∉ pre) (hbody : ('\x60' : Char) ∉ body)
    (hne : body ≠ []) (h1 : body.dropWhile pyIsSpace = body)
    (h2 : body.reverse.dropWhile pyIsSpace = body.reverse) :
    extractCore (toolCodeText pre body post) =
      match extractFuncCall body with
      | none => none
      | some pr => some ⟨String.mk pr.1, parseArgsCore pr.2⟩ := by
  have htc : tcMarker = '\x60' :: "``tool_code".toList := by decide
  have hs1 : splitFirst tcMarker (toolCodeText pre body post) =
      some (pre, '\n' :: (body ++ ('\n' :: (fenceMarker ++ post)))) := by
    rw [toolCodeText, htc, splitFirst_append_of_head_notin _ _ _ _ hpre, ← htc,
      splitFirst_append_self]
    simp
  have hfm : fenceMarker = '\x60' :: "``".toList := by decide
  have hxs : ('\x60' : Char) ∉ ('\n' :: (body ++ ['\n'])) := by
    intro hm
    rcases List.mem_cons.1 hm with h | h
    · exact absurd h (by decide)
    · rcases List.mem_append.1 h with h | h
      · exact hbody h
      · simp at h
  have hshape : ('\n' :: (body ++ ('\n' :: (fenceMarker ++ post)))) =
      ('\n' :: (body ++ ['\n'])) ++ (fenceMarker ++ post) := by simp
  have hs2 : splitFirst fenceMarker ('\n' :: (body ++ ('\n' :: (fenceMarker ++ post)))) =
      some ('\n' :: (body ++ ['\n']), post) := by
    rw [hshape, hfm, splitFirst_append_of_head_notin _ _ _ _ hxs, ← hfm, splitFirst_append_self]
    simp
  simp only [extractCore, hs1, hs2]
  rw [pyStrip_wrap body hne h1 h2]
  cases hf : extractFuncCall body with
  | none => simp
  | some pr => simp

/-- C3 (amended): for every model-output text whose first `tool_code` fenced
block's body is `name(k1=v1, k2=v2, ...)` — name and keys nonempty
word-character runs, distinct keys, values ASCII and free of commas, closing
parens, backticks and surrounding whitespace, with arbitrary backtick-free
text before the block and arbitrary text after it — the fallback parser
extracts that name and the argument map obtained by stripping surrounding
quotes from each value and coercing it with the implemented rule: a value
containing `.` becomes a float only when it parses as a Python float
literal (whitespace-stripped, underscore separators between digits
accepted) and otherwise stays a string, an all-digit value becomes an int,
and everything else stays a string with quotes stripped (so `n=3` gives
int 3, `n=3.5` gives float 7/2, `s=foo` gives string "foo", and
`k=1_0.5` gives float 21/2, but `s=a.b` stays the string "a.b"). -/
theorem spec_c3_parser_coercion (pre post fname : List Char)
    (pairs : List (List Char × List Char))
    (hpre : ('\x60' : Char) ∉ pre)
    (hname : goodKey fname)
    (hgood : ∀ kv ∈ pairs, goodKey kv.1 ∧ goodVal kv.2)
    (hnd : (pairs.map fun kv => String.mk kv.1).Nodup) :
    extractCore (toolCodeText pre (fcBody fname (renderArgs (pairs.map pairPiece))) post) =
      some ⟨String.mk fname,
        pairs.map fun kv => (String.mk kv.1, coerceValue (stripQuotes kv.2))⟩ ∧
    coerceValue "3".toList = PyVal.int 3 ∧
    coerceValue "3.5".toList = PyVal.float (mkRat 7 2) ∧
    coerceValue "foo".toList = PyVal.str "foo" ∧
    coerceValue "a.b".toList = PyVal.str "a.b" := by
  refine ⟨?_, by decide, by decide, by decide, by decide⟩
  obtain ⟨b, t, hbt⟩ : ∃ b t, fname = b :: t := by
    cases hkv : fname with
    | nil => exact absurd hkv hname.1
    | cons b t => exact ⟨b, t, rfl⟩
  have hargsmem : ∀ d : Char, isWordChar d = false → d ≠ '=' → d ≠ ',' → d ≠ ' ' →
      (∀ kv ∈ pairs, d ∉ kv.2) → d ∉ renderArgs (pairs.map pairPiece) := by
    intro d hdw hde hdc hds hdv hm
    rcases mem_renderArgs _ d hm with ⟨p, hp, hdp⟩ | h | h
    · obtain ⟨kv', hkv', rfl⟩ := List.mem_map.1 hp
      obtain ⟨hk', hv'⟩ := hgood kv' hkv'
      rcases List.mem_append.1 hdp with h | h
      · rw [hk'.2 d h] at hdw; cases hdw
      · rcases List.mem_cons.1 h with h | h
        · exact hde h
        · exact hdv kv' hkv' h
    · exact hdc h
    · exact hds h
  have hparen : (')' : Char) ∉ renderArgs (pairs.map pairPiece) :=
    hargsmem ')' (by decide) (by decide) (by decide) (by decide)
      (fun kv hkv => (hgood kv hkv).2.2.1)
  have hbtick : ('\x60' : Char) ∉ renderArgs (pairs.map pairPiece) :=
    hargsmem '\x60' (by decide) (by decide) (by decide) (by decide)
      (fun kv hkv => (hgood kv hkv).2.2.2.1)
  have hbodybt : ('\x60' : Char) ∉ fcBody fname (renderArgs (pairs.map pairPiece)) := by
    intro hm
    rcases List.mem_append.1 hm with h | h
    · exact absurd (hname.2 _ h) (by decide)
    · rcases List.mem_cons.1 h with h | h
      · exact absurd h (by decide)
      · rcases List.mem_append.1 h with h | h
        · exact hbtick h
        · simp at h
  have hbodyne : fcBody fname (renderArgs (pairs.map pairPiece)) ≠ [] := by
    rw [fcBody, hbt]
    simp
  have hb1 : (fcBody fname (renderArgs (pairs.map pairPiece))).dropWhile pyIsSpace =
      fcBody fname (renderArgs (pairs.map pairPiece)) := by
    rw [fcBody, hbt, List.cons_append, List.dropWhile_cons,
      word_not_space b (hname.2 b (by simp [hbt]))]
    simp
  have hb2 : (fcBody fname (renderArgs (pairs.map pairPiece))).reverse.dropWhile pyIsSpace =
      (fcBody fname (renderArgs (pairs.map pairPiece))).reverse := by
    have hshape : fcBody fname (renderArgs (pairs.map pairPiece)) =
        (fname ++ '(' :: renderArgs (pairs.map pairPiece)) ++ [')'] := by
      rw [fcBody]
      simp
    rw [hshape, List.reverse_append]
    simp only [List.reverse_cons, List.reverse_nil, List.nil_append, List.singleton_append]
    rw [List.dropWhile_cons, show pyIsSpace ')' = false from by decide]
    simp
  rw [extractCore_block pre _ post hpre hbodybt hbodyne hb1 hb2]
  rw [fcBody, extractFuncCall_call fname (renderArgs (pairs.map pairPiece)) hname.1 hname.2 hparen]
  simp only [parseArgsCore_render pairs hgood hnd]

def PyVal.isFloat : PyVal → Bool
  | PyVal.float _ => true
  | _ => false

/-- C3: the claim says each parsed value containing '.' is coerced to float;
for the in-scope input `f(s=a.b)` the value `a.b` contains '.' but
`float("a.b")` raises, the `ValueError` is caught, and the value stays the
string "a.b" — not a float. -/
theorem spec_c3_cx_dot_value_not_float :
    extract_tool_call_from_text "```tool_code\nf(s=a.b)\n```" =
      some ⟨"f", [("s", PyVal.str "a.b")]⟩ ∧
    ("a.b".toList.contains '.') = true ∧
    PyVal.isFloat (PyVal.str "a.b") = false := by
  decide

theorem spec_c3_witness :
    extractCore (toolCodeText [] (fcBody "f".toList (renderArgs
        ([("n".toList, "3".toList), ("x".toList, "3.5".toList),
          ("s".toList, "\x22foo\x22".toList)].map pairPiece))) []) =
      some ⟨"f", [("n", PyVal.int 3), ("x", PyVal.float (mkRat 7 2)),
        ("s", PyVal.str "foo")]⟩ := by
  have h := (spec_c3_parser_coercion [] [] "f".toList
    [("n".toList, "3".toList), ("x".toList, "3.5".toList), ("s".toList, "\x22foo\x22".toList)]
    (by decide) (by decide) (by decide) (by decide)).1
  rw [h]
  decide
